import Mathlib

/-!
Verification development for the cantonese-tts backend core:
the audio cache (`app/cache.py`), the session manager
(`app/session_manager.py`) and the generation orchestrator
(`app/tts_generator.py`), shallowly embedded in Lean.

Modelling conventions:
  * Python `str` values are modelled as `List Char`; audio byte strings as
    `List Nat`.
  * `datetime` timestamps are modelled as natural numbers measured in hours
    (every comparison in the source is of the form
    `now > created_at + timedelta(hours=ttl)`, so only the hour scale
    matters; ISO-format string comparison of timestamps produced by
    `datetime.isoformat` agrees with the numeric order).
  * Python dicts used as keyed stores (`_metadata_cache`, the blob
    directory, `_sessions`, the Redis store) are modelled as
    insertion-ordered association lists: `dictUpsert` replaces the value in
    place for an existing key (Python dict assignment keeps the key's
    position) and appends fresh keys at the end, exactly like CPython
    dicts, and `dictErase` models `del d[k]`.
  * I/O never fails in the model: the claims under study are about the
    logical state machine, and every I/O failure path in the source only
    converts an operation into a miss/`False` result.
-/

namespace TTSSpec

/-- Membership lookup in an insertion-ordered association list, modelling
`d.get(k)` / `k in d` on a Python dict. -/
def dictGet {V : Type} (k : List Char) : List (List Char × V) → Option V
  | [] => none
  | (k', v) :: rest => if k = k' then some v else dictGet k rest

/-- Assignment `d[k] = v` on a Python dict: an existing key keeps its
position in the insertion order, a fresh key is appended at the end. -/
def dictUpsert {V : Type} (k : List Char) (v : V) : List (List Char × V) → List (List Char × V)
  | [] => [(k, v)]
  | (k', v') :: rest => if k = k' then (k, v) :: rest else (k', v') :: dictUpsert k v rest

/-- Deletion `del d[k]` (a no-op when the key is absent, matching the
guarded deletes in the source). -/
def dictErase {V : Type} (k : List Char) : List (List Char × V) → List (List Char × V)
  | [] => []
  | (k', v') :: rest => if k = k' then rest else (k', v') :: dictErase k rest

/-- The request model of `app/models.py:TTSRequest`: five string fields
(`rate`, `volume`, `pitch` carry defaults at the HTTP layer; here every
field is a plain string). -/
structure TTSRequest where
  text : List Char
  voice : List Char
  rate : List Char
  volume : List Char
  pitch : List Char
  deriving DecidableEq

/-- The double-quote character, written by code point to keep string
literals free of quoting noise. -/
def dq : Char := '\x22'

/-- Lowercase hex digit of a nibble, as produced by Python's
`json.dumps` for `\u00XY` control-character escapes. -/
def hexDigit (n : Nat) : Char :=
  if n < 10 then Char.ofNat ('0'.toNat + n) else Char.ofNat ('a'.toNat + (n - 10))

/-- Escaping of a single character inside a JSON string literal, as done by
`json.dumps(..., ensure_ascii=False)`: quote and backslash get
two-character escapes, the five named control characters get their short
escapes, the remaining code points below 32 get `\u00XY`, everything else
(including non-ASCII) passes through unchanged. -/
def jsonEscapeChar (c : Char) : List Char :=
  if c = dq then ['\\', dq]
  else if c = '\\' then ['\\', '\\']
  else if c = '\u0008' then ['\\', 'b']
  else if c = '\u0009' then ['\\', 't']
  else if c = '\u000a' then ['\\', 'n']
  else if c = '\u000c' then ['\\', 'f']
  else if c = '\u000d' then ['\\', 'r']
  else if c.toNat < 32 then ['\\', 'u', '0', '0', hexDigit (c.toNat / 16), hexDigit (c.toNat % 16)]
  else [c]

/-- Escaping of a whole string body (no surrounding quotes). -/
def jsonEscape : List Char → List Char
  | [] => []
  | c :: cs => jsonEscapeChar c ++ jsonEscape cs

/-- Python `str.strip()` with no argument: drop whitespace from both ends. -/
def pyStrip (s : List Char) : List Char :=
  ((s.dropWhile Char.isWhitespace).reverse.dropWhile Char.isWhitespace).reverse

/-- One `"key": "value"` JSON field: the escaped value, its closing quote,
then the rest of the document.  The opening quote of the value is emitted
by the caller, so that equalities between serializations decompose into
`jsonEscape v ++ dq :: tail` problems. -/
def jsonField (value tail : List Char) : List Char :=
  jsonEscape value ++ dq :: tail

/-- The canonical serialization built by `TTSCache._generate_cache_key`:
`json.dumps(cache_data, sort_keys=True, ensure_ascii=False)` over the dict
with keys `pitch, rate, text, voice, volume` (alphabetical by
`sort_keys`), default separators `", "` and `": "`, with the text field
stripped first.  Written as nested cons cells so the fixed punctuation is
explicit. -/
def cache_string (request : TTSRequest) : List Char :=
  '\x7b' :: dq :: 'p' :: 'i' :: 't' :: 'c' :: 'h' :: dq :: ':' :: ' ' :: dq ::
    jsonField request.pitch
      (',' :: ' ' :: dq :: 'r' :: 'a' :: 't' :: 'e' :: dq :: ':' :: ' ' :: dq ::
        jsonField request.rate
          (',' :: ' ' :: dq :: 't' :: 'e' :: 'x' :: 't' :: dq :: ':' :: ' ' :: dq ::
            jsonField (pyStrip request.text)
              (',' :: ' ' :: dq :: 'v' :: 'o' :: 'i' :: 'c' :: 'e' :: dq :: ':' :: ' ' :: dq ::
                jsonField request.voice
                  (',' :: ' ' :: dq :: 'v' :: 'o' :: 'l' :: 'u' :: 'm' :: 'e' :: dq :: ':' :: ' ' :: dq ::
                    jsonField request.volume ['\x7d']))))

/-- The cache key.  The source hashes `cache_string` with SHA-256 and uses
the hex digest; the digest is modelled as an injective function, i.e. the
key IS the canonical serialization.  Every claim about key
equality/distinctness is therefore a claim about the pre-hash
serialization, which is how the spec phrases its collision statement. -/
def generate_cache_key (request : TTSRequest) : List Char :=
  cache_string request

/-- One entry of `TTSCache._metadata_cache`.  `file_size` is optional
because the source reads it with `metadata.get("file_size", 0)`
(an index loaded from disk may lack it); `put` always records it.
The diagnostic `request_params` sub-dict is not modelled (never read). -/
structure CacheMeta where
  created_at : Nat
  last_accessed : Nat
  access_count : Nat
  file_size : Option Nat
  ttl_hours : Nat
  deriving DecidableEq

/-- The running counters of `TTSCache._cache_stats`.  The byte/file
counters are integers in Python; the source clamps them with `max(0, ...)`
on removal, which is modelled literally. -/
structure CacheStats where
  hits : Nat
  misses : Nat
  total_requests : Nat
  cache_size_bytes : Int
  files_count : Int
  deriving DecidableEq

/-- The state of a `TTSCache` instance: configuration, metadata index,
the on-disk blob directory (fingerprint to audio bytes), and counters. -/
structure TTSCache where
  max_cache_size_bytes : Nat
  default_ttl_hours : Nat
  metadata_cache : List (List Char × CacheMeta)
  files : List (List Char × List Nat)
  stats : CacheStats
  deriving DecidableEq

/-- A freshly constructed cache (`TTSCache.__init__` with an empty cache
directory; the constructor takes megabytes and multiplies by 2^20, here
the byte budget is taken directly). -/
def freshCache (max_bytes ttl_hours : Nat) : TTSCache :=
  { max_cache_size_bytes := max_bytes
    default_ttl_hours := ttl_hours
    metadata_cache := []
    files := []
    stats := { hits := 0, misses := 0, total_requests := 0, cache_size_bytes := 0, files_count := 0 } }

/-- Python's `ttl_hours or default`: `None` and `0` both fall through to
the default (0 is falsy). -/
def ttlOrDefault (default_ttl : Nat) : Option Nat → Nat
  | none => default_ttl
  | some h => if h = 0 then default_ttl else h

/-- The recorded size of one metadata entry, as read by
`metadata.get("file_size", 0)`. -/
def recordedSize (md : CacheMeta) : Nat :=
  md.file_size.getD 0

/-- `TTSCache._remove_cache_item`: drop the metadata entry (clamping the
two aggregate counters at zero) and delete the blob. -/
def remove_cache_item (c : TTSCache) (cache_key : List Char) : TTSCache :=
  let c1 :=
    match dictGet cache_key c.metadata_cache with
    | some md =>
        { c with
          metadata_cache := dictErase cache_key c.metadata_cache
          stats := { c.stats with
            cache_size_bytes := max 0 (c.stats.cache_size_bytes - (recordedSize md : Int))
            files_count := max 0 (c.stats.files_count - 1) } }
    | none => c
  { c1 with files := dictErase cache_key c1.files }

/-- The comparison under which the eviction candidates are ordered.
`_ensure_cache_size_limit` sorts `(key, last_accessed)` pairs with
Python's stable `list.sort(key=lambda x: x[1])`; a stable sort by
`last_accessed` is exactly a sort by the lexicographic order on
`(last_accessed, original position)`, so the candidates are decorated with
their index in the metadata dict's insertion order. -/
def evictLE (a b : Nat × (List Char × Nat)) : Prop :=
  a.2.2 < b.2.2 ∨ (a.2.2 = b.2.2 ∧ a.1 ≤ b.1)

instance : DecidableRel evictLE := fun a b => by
  unfold evictLE; infer_instance

instance : IsTotal (Nat × (List Char × Nat)) evictLE where
  total a b := by
    unfold evictLE
    rcases Nat.lt_trichotomy a.2.2 b.2.2 with h | h | h
    · exact Or.inl (Or.inl h)
    · rcases Nat.le_total a.1 b.1 with h' | h'
      · exact Or.inl (Or.inr ⟨h, h'⟩)
      · exact Or.inr (Or.inr ⟨h.symm, h'⟩)
    · exact Or.inr (Or.inl h)

instance : IsTrans (Nat × (List Char × Nat)) evictLE where
  trans a b c hab hbc := by
    unfold evictLE at *
    rcases hab with h1 | ⟨h1, h1'⟩ <;> rcases hbc with h2 | ⟨h2, h2'⟩
    · exact Or.inl (h1.trans h2)
    · exact Or.inl (h2 ▸ h1)
    · exact Or.inl (h1 ▸ h2)
    · exact Or.inr ⟨h1.trans h2, h1'.trans h2'⟩

/-- The eviction candidate list: `[(key, md["last_accessed"]) for ...]`
in dict insertion order, decorated with positions and stably sorted by
`last_accessed` (ties keep insertion order). -/
def sortedCacheItems (c : TTSCache) : List (Nat × (List Char × Nat)) :=
  List.insertionSort evictLE
    ((c.metadata_cache.map (fun kv => (kv.1, kv.2.last_accessed))).enum)

/-- The removal loop of `_ensure_cache_size_limit`: walk the sorted
candidates, stop as soon as `bytes_freed >= bytes_to_free`, otherwise read
the entry's recorded size, remove it and keep going. -/
def evictLoop (toFree : Int) : List (Nat × (List Char × Nat)) → Int → TTSCache → TTSCache
  | [], _, c => c
  | (_, (cache_key, _)) :: rest, freed, c =>
    if freed ≥ toFree then c
    else
      let fs : Nat := ((dictGet cache_key c.metadata_cache).map recordedSize).getD 0
      evictLoop toFree rest (freed + (fs : Int)) (remove_cache_item c cache_key)

/-- `TTSCache._ensure_cache_size_limit`: nothing happens while the counter
plus the incoming size fits the budget; otherwise evict oldest-first until
enough bytes are freed or no candidates remain. -/
def ensure_cache_size_limit (c : TTSCache) (new_file_size : Nat) : TTSCache :=
  if c.stats.cache_size_bytes + (new_file_size : Int) ≤ (c.max_cache_size_bytes : Int) then c
  else
    let bytes_to_free : Int :=
      (c.stats.cache_size_bytes + (new_file_size : Int)) - (c.max_cache_size_bytes : Int)
    evictLoop bytes_to_free (sortedCacheItems c) 0 c

/-- `TTSCache.get`: count the lookup, then miss on absent key, expired
entry (purging it), or missing blob (purging the entry); on success touch
`last_accessed`/`access_count` in place and return the bytes. -/
def cacheGet (c : TTSCache) (request : TTSRequest) (now : Nat) : TTSCache × Option (List Nat) :=
  let cache_key := generate_cache_key request
  let c := { c with stats := { c.stats with total_requests := c.stats.total_requests + 1 } }
  match dictGet cache_key c.metadata_cache with
  | none =>
      ({ c with stats := { c.stats with misses := c.stats.misses + 1 } }, none)
  | some metadata =>
      if now > metadata.created_at + metadata.ttl_hours then
        let c := remove_cache_item c cache_key
        ({ c with stats := { c.stats with misses := c.stats.misses + 1 } }, none)
      else
        match dictGet cache_key c.files with
        | none =>
            let c := remove_cache_item c cache_key
            ({ c with stats := { c.stats with misses := c.stats.misses + 1 } }, none)
        | some audio_data =>
            let c := { c with
              metadata_cache := dictUpsert cache_key
                { metadata with last_accessed := now, access_count := metadata.access_count + 1 }
                c.metadata_cache }
            ({ c with stats := { c.stats with hits := c.stats.hits + 1 } }, some audio_data)

/-- `TTSCache.put`: make room, write the blob, record fresh metadata
(replacing in place any previous entry under the same key), bump the
aggregate counters, and report success.  The I/O-failure branch (which is
the only way the source returns `False`) does not arise in the model. -/
def cachePut (c : TTSCache) (request : TTSRequest) (audio_data : List Nat)
    (ttl_hours : Option Nat) (now : Nat) : TTSCache × Bool :=
  let cache_key := generate_cache_key request
  let c := ensure_cache_size_limit c audio_data.length
  let c := { c with files := dictUpsert cache_key audio_data c.files }
  let md : CacheMeta :=
    { created_at := now
      last_accessed := now
      access_count := 0
      file_size := some audio_data.length
      ttl_hours := ttlOrDefault c.default_ttl_hours ttl_hours }
  let c := { c with metadata_cache := dictUpsert cache_key md c.metadata_cache }
  let c := { c with stats := { c.stats with
      cache_size_bytes := c.stats.cache_size_bytes + (audio_data.length : Int)
      files_count := c.stats.files_count + 1 } }
  (c, true)

/-- `TTSCache.clear_expired`: collect the expired keys, remove each,
return how many. -/
def clear_expired (c : TTSCache) (now : Nat) : TTSCache × Nat :=
  let expired_keys :=
    (c.metadata_cache.filter (fun kv => now > kv.2.created_at + kv.2.ttl_hours)).map (·.1)
  (expired_keys.foldl remove_cache_item c, expired_keys.length)

/-- `TTSCache.clear_all`: remove every entry, then reset the two aggregate
counters (the hit/miss counters are left alone). -/
def clear_all (c : TTSCache) : TTSCache × Nat :=
  let removed_count := c.metadata_cache.length
  let c := (c.metadata_cache.map (·.1)).foldl remove_cache_item c
  let c := { c with stats := { c.stats with cache_size_bytes := 0, files_count := 0 } }
  (c, removed_count)

/-- A session record (`app/session_manager.py:SessionData`).  The
`sentences` payload is a list of opaque segmentation rows (dicts in the
source, not inspected by the manager), modelled as strings; `metadata` is
an open string-keyed map. -/
structure SessionData where
  session_id : List Char
  text : List Char
  voice : List Char
  name : Option (List Char)
  persistent : Bool
  created_at : Nat
  expires_at : Nat
  sentences : Option (List (List Char))
  metadata : List (List Char × List Char)
  deriving DecidableEq

/-- `SessionData.is_expired`: persistent sessions never expire; otherwise
compare the clock against `expires_at`. -/
def is_expired (s : SessionData) (now : Nat) : Bool :=
  if s.persistent then false else decide (now > s.expires_at)

/-- The state of a `SessionManager`: the in-process dict of temporary
sessions, the optional external (Redis) store — `none` when the store is
not configured — and the configured default TTL.  The store holds the
`to_dict` serialization of each record; `to_dict`/`from_dict` are inverse
field-by-field conversions, so the store is modelled as holding records
directly. -/
structure SessionManager where
  sessions : List (List Char × SessionData)
  persistent_store : Option (List (List Char × SessionData))
  default_ttl_hours : Nat
  deriving DecidableEq

/-- `SessionManager.create_session`.  The fresh `uuid4` id is passed in
as `session_id`.  Note `timedelta(hours=ttl_hours) if ttl_hours else
self._default_ttl`: both `None` and `0` select the default.  A persistent
session goes to the external store only when one is configured; otherwise
the `else` branch stores it in the in-process dict. -/
def create_session (sm : SessionManager) (text voice : List Char)
    (name : Option (List Char)) (ttl_hours : Option Nat)
    (metadata : Option (List (List Char × List Char))) (persistent : Bool)
    (session_id : List Char) (now : Nat) : SessionManager × SessionData :=
  let ttl := ttlOrDefault sm.default_ttl_hours ttl_hours
  let expires_at := now + ttl
  let session : SessionData :=
    { session_id := session_id
      text := text
      voice := voice
      name := name
      persistent := persistent
      created_at := now
      expires_at := expires_at
      sentences := none
      metadata := metadata.getD [] }
  if persistent ∧ sm.persistent_store.isSome then
    ({ sm with persistent_store := sm.persistent_store.map (dictUpsert session_id session) },
     session)
  else
    ({ sm with sessions := dictUpsert session_id session sm.sessions }, session)

/-- `SessionManager.get_session`: the in-process dict is consulted first;
a hit that is expired is deleted and reported absent (without consulting
the external store); only on an in-process miss is the external store
queried. -/
def get_session (sm : SessionManager) (session_id : List Char) (now : Nat) :
    SessionManager × Option SessionData :=
  match dictGet session_id sm.sessions with
  | some session =>
      if is_expired session now then
        ({ sm with sessions := dictErase session_id sm.sessions }, none)
      else
        (sm, some session)
  | none =>
      match sm.persistent_store with
      | some store =>
          match dictGet session_id store with
          | some session => (sm, some session)
          | none => (sm, none)
      | none => (sm, none)

/-- Key-wise upsert of one dict into another, modelling Python
`dict.update`. -/
def mergeMetadata (base extra : List (List Char × List Char)) :
    List (List Char × List Char) :=
  extra.foldl (fun acc kv => dictUpsert kv.1 kv.2 acc) base

/-- The field updates shared by both branches of
`SessionManager.update_session`: `sentences` is replaced wholesale when
provided (`is not None`), `metadata` is merged when truthy (a provided
empty dict is falsy and skipped). -/
def applySessionUpdate (s : SessionData) (sentences : Option (List (List Char)))
    (metadata : Option (List (List Char × List Char))) : SessionData :=
  let s := match sentences with
    | some v => { s with sentences := some v }
    | none => s
  match metadata with
  | some m => if m = [] then s else { s with metadata := mergeMetadata s.metadata m }
  | none => s

/-- `SessionManager.update_session`: try the in-process record first (an
expired one fails without deletion and without falling through); then
read-modify-write against the external store. -/
def update_session (sm : SessionManager) (session_id : List Char)
    (sentences : Option (List (List Char)))
    (metadata : Option (List (List Char × List Char))) (now : Nat) :
    SessionManager × Bool :=
  match dictGet session_id sm.sessions with
  | some session =>
      if is_expired session now then (sm, false)
      else
        ({ sm with sessions :=
              dictUpsert session_id (applySessionUpdate session sentences metadata) sm.sessions },
         true)
  | none =>
      match sm.persistent_store with
      | some store =>
          match dictGet session_id store with
          | some session =>
              let store' := dictUpsert session_id
                (applySessionUpdate session sentences metadata) store
              ({ sm with persistent_store := some store' }, true)
          | none => (sm, false)
      | none => (sm, false)

/-- `SessionManager.delete_session`: remove from both tiers
unconditionally (`del` happens only under the membership guard, which is
the same as an unconditional erase), reporting whether either tier held
the record. -/
def delete_session (sm : SessionManager) (session_id : List Char) :
    SessionManager × Bool :=
  let memHit := (dictGet session_id sm.sessions).isSome
  let sessions' := if memHit then dictErase session_id sm.sessions else sm.sessions
  match sm.persistent_store with
  | some store =>
      if (dictGet session_id store).isSome then
        let sm' : SessionManager :=
          { sessions := sessions', persistent_store := some (dictErase session_id store),
            default_ttl_hours := sm.default_ttl_hours }
        (sm', true)
      else ({ sm with sessions := sessions' }, memHit)
  | none => ({ sm with sessions := sessions' }, memHit)

/-- `SessionManager.cleanup_expired`, the body of the background sweep:
delete every expired in-process record, return the count.  The external
store is never touched. -/
def cleanup_expired (sm : SessionManager) (now : Nat) : SessionManager × Nat :=
  let expired_ids := (sm.sessions.filter (fun kv => is_expired kv.2 now)).map (·.1)
  ({ sm with sessions := expired_ids.foldl (fun acc sid => dictErase sid acc) sm.sessions },
   expired_ids.length)

/-- One chunk yielded by the external synthesis backend
(`communicate.stream()` in `app/tts_generator.py`): a type tag and a byte
payload; only chunks tagged `audio` carry audio. -/
structure TTSChunk where
  chunkType : List Char
  data : List Nat
  deriving DecidableEq

/-- The tag string `audio`. -/
def audioTag : List Char := ['a', 'u', 'd', 'i', 'o']

/-- The audio payloads of a backend stream, in order
(`chunk["data"] for chunk in ... if chunk["type"] == "audio"`). -/
def audioDatas (backend : List TTSChunk) : List (List Nat) :=
  (backend.filter (fun ch => ch.chunkType = audioTag)).map (·.data)

/-- The fixed streaming chunk size of `generate_speech_stream`
(8 KiB). -/
def chunk_size : Nat := 8192

/-- Partition of a byte string into successive `chunk_size` slices, the
last possibly shorter (`for i in range(0, len(b), 8192): yield
b[i:i+8192]`). -/
def chunksOf (l : List Nat) : List (List Nat) :=
  if h : l = [] then []
  else
    l.take chunk_size :: chunksOf (l.drop chunk_size)
termination_by l.length
decreasing_by
  simp only [List.length_drop, chunk_size]
  have hl : 0 < l.length := List.length_pos.mpr h
  omega

/-- `generate_speech_stream` as a function of the request, the caching
flag, the cache state, the clock and the backend's chunk stream: returns
the ordered list of chunks yielded to the HTTP layer together with the
final cache state.  A cached hit is served in `chunk_size` slices only
when truthy (non-empty); the generation path re-emits each audio chunk
verbatim and, when caching is on and the chunk LIST is non-empty, commits
the accumulated buffer. -/
def generate_speech_stream (request : TTSRequest) (use_cache : Bool)
    (c : TTSCache) (now : Nat) (backend : List TTSChunk) :
    List (List Nat) × TTSCache :=
  let (c1, cached_audio) := if use_cache then cacheGet c request now else (c, none)
  if cached_audio.getD [] ≠ [] then
    (chunksOf (cached_audio.getD []), c1)
  else
    let audio_chunks := audioDatas backend
    let complete_audio := audio_chunks.flatten
    let c2 := if use_cache ∧ audio_chunks ≠ [] then
        (cachePut c1 request complete_audio none now).1
      else c1
    (audio_chunks, c2)

/-- `generate_speech_bytes`: same cache-or-generate logic, but the whole
buffer is returned at once and the commit condition tests the accumulated
BYTES (`if use_cache and complete_audio`). -/
def generate_speech_bytes (request : TTSRequest) (use_cache : Bool)
    (c : TTSCache) (now : Nat) (backend : List TTSChunk) :
    List Nat × TTSCache :=
  let (c1, cached_audio) := if use_cache then cacheGet c request now else (c, none)
  if cached_audio.getD [] ≠ [] then
    (cached_audio.getD [], c1)
  else
    let audio_chunks := audioDatas backend
    let complete_audio := audio_chunks.flatten
    let c2 := if use_cache ∧ complete_audio ≠ [] then
        (cachePut c1 request complete_audio none now).1
      else c1
    (complete_audio, c2)

/-- Aggregate recorded size of the metadata index: the sum of the
entries' recorded `file_size` values (the quantity the budget claims are
about). -/
def metaSize (c : TTSCache) : Nat :=
  (c.metadata_cache.map (fun kv => recordedSize kv.2)).sum

/-- A concrete request used by witnesses and counterexamples. -/
def rqA : TTSRequest :=
  ⟨['h', 'i'], ['v'], ['r'], ['o'], ['p']⟩

/-- A second concrete request, differing from `rqA` in the voice. -/
def rqB : TTSRequest :=
  ⟨['h', 'i'], ['w'], ['r'], ['o'], ['p']⟩

/-- A freshly constructed `SessionManager` (no sessions yet), with or
without the external persistent store configured. -/
def freshSessionManager (default_ttl_hours : Nat)
    (store : Option (List (List Char × SessionData))) : SessionManager :=
  { sessions := [], persistent_store := store, default_ttl_hours := default_ttl_hours }

/-- One public operation against the cache, for reasoning about
operation sequences. -/
inductive CacheOp where
  | getOp (request : TTSRequest) (now : Nat)
  | putOp (request : TTSRequest) (audio_data : List Nat) (ttl_hours : Option Nat) (now : Nat)
  | clearExpiredOp (now : Nat)
  | clearAllOp
  deriving DecidableEq

/-- Apply one operation (dropping its return value). -/
def cacheStep (c : TTSCache) : CacheOp → TTSCache
  | .getOp request now => (cacheGet c request now).1
  | .putOp request audio_data ttl_hours now => (cachePut c request audio_data ttl_hours now).1
  | .clearExpiredOp now => (clear_expired c now).1
  | .clearAllOp => (clear_all c).1

/-- Run a sequence of operations left to right. -/
def runCacheOps (c : TTSCache) (ops : List CacheOp) : TTSCache :=
  ops.foldl cacheStep c

/-- The statistics invariant of claim C10: lookups are partitioned into
hits and misses, and the two aggregate counters are never negative. -/
def StatsInv (c : TTSCache) : Prop :=
  c.stats.hits + c.stats.misses = c.stats.total_requests ∧
  0 ≤ c.stats.cache_size_bytes ∧
  0 ≤ c.stats.files_count

/-- Keys of an association list are pairwise distinct (always true of the
lists that model Python dicts). -/
@[reducible] def NodupKeys {V : Type} (l : List (List Char × V)) : Prop :=
  (l.map Prod.fst).Nodup

/-- One public operation against the session manager, for reasoning about
operation sequences.  The fresh `uuid4` of a create is carried as data. -/
inductive SessionOp where
  | createOp (text voice : List Char) (name : Option (List Char)) (ttl_hours : Option Nat)
      (metadata : Option (List (List Char × List Char))) (persistent : Bool)
      (session_id : List Char) (now : Nat)
  | getOp (session_id : List Char) (now : Nat)
  | updateOp (session_id : List Char) (sentences : Option (List (List Char)))
      (metadata : Option (List (List Char × List Char))) (now : Nat)
  | deleteOp (session_id : List Char)
  | cleanupOp (now : Nat)
  deriving DecidableEq

/-- Apply one session operation (dropping its return value). -/
def sessionStep (sm : SessionManager) : SessionOp → SessionManager
  | .createOp text voice name ttl_hours metadata persistent sid now =>
      (create_session sm text voice name ttl_hours metadata persistent sid now).1
  | .getOp sid now => (get_session sm sid now).1
  | .updateOp sid sentences metadata now => (update_session sm sid sentences metadata now).1
  | .deleteOp sid => (delete_session sm sid).1
  | .cleanupOp now => (cleanup_expired sm now).1

/-- Run a sequence of session operations left to right. -/
def runSessionOps (sm : SessionManager) (ops : List SessionOp) : SessionManager :=
  ops.foldl sessionStep sm

/-- The id supplied to a create is globally fresh (what `uuid.uuid4()`
guarantees): absent from both tiers at the moment of the create. -/
def sessionOpFresh (sm : SessionManager) : SessionOp → Bool
  | .createOp _ _ _ _ _ _ sid _ =>
      (dictGet sid sm.sessions).isNone && (dictGet sid (sm.persistent_store.getD [])).isNone
  | _ => true

/-- Every create in the run uses a fresh id at its point of execution. -/
def sessionRunFresh (sm : SessionManager) : List SessionOp → Bool
  | [] => true
  | op :: ops => sessionOpFresh sm op && sessionRunFresh (sessionStep sm op) ops

/-- The two-tier separation invariant of claim C4 (together with the
dict well-formedness it needs): the in-process tier holds only records
tagged non-persistent, the external store (when configured) holds only
records tagged persistent, and no id is present in both tiers. -/
def TierInv (sm : SessionManager) : Prop :=
  NodupKeys sm.sessions ∧
  (∀ sid s, dictGet sid sm.sessions = some s → s.persistent = false) ∧
  (∀ st, sm.persistent_store = some st →
    NodupKeys st ∧
    (∀ sid s, dictGet sid st = some s → s.persistent = true) ∧
    (∀ sid, (dictGet sid sm.sessions).isSome → dictGet sid st = none))

/-- Run a sequence of `put` calls (request, bytes, optional TTL, clock)
against the cache. -/
def runPuts (c : TTSCache) : List (TTSRequest × List Nat × Option Nat × Nat) → TTSCache
  | [] => c
  | p :: ps => runPuts (cachePut c p.1 p.2.1 p.2.2.1 p.2.2.2).1 ps

/-- Well-formedness tying the metadata index to the aggregate counter:
keys are unique (a dict) and the counter is an over-approximation of the
recorded sizes (`put` on an existing key adds the new size without
subtracting the old one, so the counter can only drift upward). -/
def SizeInv (c : TTSCache) : Prop :=
  NodupKeys c.metadata_cache ∧
  (metaSize c : Int) ≤ c.stats.cache_size_bytes

/-- The position of a key in an association list's insertion order (the
index of its entry; length of the list when absent). -/
def keyIndex {V : Type} (k : List Char) : List (List Char × V) → Nat
  | [] => 0
  | (k', _) :: rest => if k = k' then 0 else keyIndex k rest + 1

/-- A concrete cache for the eviction-order scenario of claim C7:
budget 12 bytes, three 4-byte entries A, B, C last accessed at hours
1, 2, 3, with a consistent aggregate counter. -/
def evictDemoCache : TTSCache :=
  { max_cache_size_bytes := 12
    default_ttl_hours := 24
    metadata_cache :=
      [(['a'], { created_at := 0, last_accessed := 1, access_count := 0,
                 file_size := some 4, ttl_hours := 24 }),
       (['b'], { created_at := 0, last_accessed := 2, access_count := 0,
                 file_size := some 4, ttl_hours := 24 }),
       (['c'], { created_at := 0, last_accessed := 3, access_count := 0,
                 file_size := some 4, ttl_hours := 24 })]
    files := [(['a'], [0, 0, 0, 0]), (['b'], [0, 0, 0, 0]), (['c'], [0, 0, 0, 0])]
    stats := { hits := 0, misses := 0, total_requests := 0,
               cache_size_bytes := 12, files_count := 3 } }

/-- Inverse of `hexDigit` on lowercase hex digits. -/
def unhexDigit (c : Char) : Nat :=
  if 'a'.toNat ≤ c.toNat then c.toNat - 'a'.toNat + 10 else c.toNat - '0'.toNat

/-- A one-character decoder for the JSON string-body escaping: reads one
escaped character off the front of an escaped stream, refusing a bare
quote (which in a JSON document terminates the string literal).  It is a
left inverse of `jsonEscapeChar`, which is what makes the canonical
serialization prefix-unambiguous. -/
def unescape1 : List Char → Option (Char × List Char)
  | [] => none
  | c :: rest =>
    if c = '\\' then
      match rest with
      | [] => none
      | e :: rest2 =>
        if e = dq then some (dq, rest2)
        else if e = '\\' then some ('\\', rest2)
        else if e = 'b' then some ('\u0008', rest2)
        else if e = 't' then some ('\u0009', rest2)
        else if e = 'n' then some ('\u000a', rest2)
        else if e = 'f' then some ('\u000c', rest2)
        else if e = 'r' then some ('\u000d', rest2)
        else if e = 'u' then
          match rest2 with
          | _ :: _ :: h1 :: h2 :: rest4 =>
              some (Char.ofNat (16 * unhexDigit h1 + unhexDigit h2), rest4)
          | _ => none
        else none
    else if c = dq then none
    else some (c, rest)

/-! Generic association-list lemmas. -/

@[simp] theorem dictGet_upsert_self {V : Type} (k : List Char) (v : V) (l : List (List Char × V)) :
    dictGet k (dictUpsert k v l) = some v := by
  induction l with
  | nil => simp [dictGet, dictUpsert]
  | cons hd tl ih =>
      by_cases h : k = hd.1
      · simp [dictGet, dictUpsert, h]
      · simpa [dictGet, dictUpsert, h] using ih

theorem dictGet_upsert_ne {V : Type} {k k' : List Char} (v : V) (l : List (List Char × V))
    (h : k ≠ k') : dictGet k (dictUpsert k' v l) = dictGet k l := by
  induction l with
  | nil => simp [dictGet, dictUpsert, h]
  | cons hd tl ih =>
      by_cases h' : k' = hd.1
      · subst h'; simp [dictGet, dictUpsert, h]
      · by_cases h'' : k = hd.1 <;> simp [dictGet, dictUpsert, h', h'', ih]

theorem dictGet_erase_ne {V : Type} {k k' : List Char} (l : List (List Char × V))
    (h : k ≠ k') : dictGet k (dictErase k' l) = dictGet k l := by
  induction l with
  | nil => simp [dictErase]
  | cons hd tl ih =>
      by_cases h' : k' = hd.1
      · subst h'; simp [dictGet, dictErase, h]
      · by_cases h'' : k = hd.1 <;> simp [dictGet, dictErase, h', h'', ih]

theorem dictGet_mem_keys {V : Type} {k : List Char} {l : List (List Char × V)} {v : V}
    (h : dictGet k l = some v) : k ∈ l.map Prod.fst := by
  induction l with
  | nil => simp [dictGet] at h
  | cons hd tl ih =>
      by_cases h' : k = hd.1
      · rw [List.map_cons, h']
        exact List.mem_cons_self _ _
      · simp only [dictGet, if_neg h'] at h
        exact List.mem_cons_of_mem _ (ih h)

theorem mem_keys_erase {V : Type} {a k : List Char} {l : List (List Char × V)}
    (h : a ∈ (dictErase k l).map Prod.fst) : a ∈ l.map Prod.fst := by
  induction l with
  | nil => simp only [dictErase] at h; exact h
  | cons hd tl ih =>
      by_cases h' : k = hd.1
      · simp only [dictErase, if_pos h'] at h
        exact List.mem_cons_of_mem _ h
      · simp only [dictErase, if_neg h', List.map_cons, List.mem_cons] at h
        rcases h with h | h
        · rw [List.map_cons, h]
          exact List.mem_cons_self _ _
        · exact List.mem_cons_of_mem _ (ih h)

theorem mem_keys_upsert {V : Type} {a k : List Char} (v : V) {l : List (List Char × V)}
    (h : a ∈ (dictUpsert k v l).map Prod.fst) : a = k ∨ a ∈ l.map Prod.fst := by
  induction l with
  | nil =>
      simp only [dictUpsert, List.map_cons, List.map_nil, List.mem_singleton] at h
      exact Or.inl h
  | cons hd tl ih =>
      by_cases h' : k = hd.1
      · simp only [dictUpsert, if_pos h', List.map_cons, List.mem_cons] at h
        rcases h with h | h
        · exact Or.inl h
        · exact Or.inr (List.mem_cons_of_mem _ h)
      · simp only [dictUpsert, if_neg h', List.map_cons, List.mem_cons] at h
        rcases h with h | h
        · refine Or.inr ?_
          rw [List.map_cons, h]
          exact List.mem_cons_self _ _
        · rcases ih h with h | h
          · exact Or.inl h
          · exact Or.inr (List.mem_cons_of_mem _ h)

theorem dictGet_erase_self {V : Type} {k : List Char} {l : List (List Char × V)}
    (hnd : NodupKeys l) : dictGet k (dictErase k l) = none := by
  induction l with
  | nil => simp [dictErase, dictGet]
  | cons hd tl ih =>
      unfold NodupKeys at hnd
      simp only [List.map_cons, List.nodup_cons] at hnd
      by_cases h' : k = hd.1
      · simp only [dictErase, if_pos h']
        cases hv : dictGet k tl with
        | none => rfl
        | some v => exact absurd (h' ▸ dictGet_mem_keys hv) hnd.1
      · simp [dictGet, dictErase, h', ih hnd.2]

theorem nodupKeys_erase {V : Type} (k : List Char) {l : List (List Char × V)}
    (hnd : NodupKeys l) : NodupKeys (dictErase k l) := by
  induction l with
  | nil => exact hnd
  | cons hd tl ih =>
      unfold NodupKeys at hnd ⊢
      simp only [List.map_cons, List.nodup_cons] at hnd
      by_cases h' : k = hd.1
      · simp only [dictErase, if_pos h']
        exact hnd.2
      · simp only [dictErase, if_neg h', List.map_cons, List.nodup_cons]
        exact ⟨fun hmem => hnd.1 (mem_keys_erase hmem), ih hnd.2⟩

theorem nodupKeys_upsert {V : Type} (k : List Char) (v : V) {l : List (List Char × V)}
    (hnd : NodupKeys l) : NodupKeys (dictUpsert k v l) := by
  induction l with
  | nil => simp [NodupKeys, dictUpsert]
  | cons hd tl ih =>
      unfold NodupKeys at hnd ⊢
      simp only [List.map_cons, List.nodup_cons] at hnd
      by_cases h' : k = hd.1
      · simp only [dictUpsert, if_pos h', List.map_cons, List.nodup_cons]
        exact ⟨h' ▸ hnd.1, hnd.2⟩
      · simp only [dictUpsert, if_neg h', List.map_cons, List.nodup_cons]
        refine ⟨fun hmem => ?_, ih hnd.2⟩
        rcases mem_keys_upsert v hmem with h | h
        · exact h' (h.symm)
        · exact hnd.1 h

/-! Configuration fields are never mutated by cache operations. -/

@[simp] theorem remove_cache_item_default_ttl (c : TTSCache) (k : List Char) :
    (remove_cache_item c k).default_ttl_hours = c.default_ttl_hours := by
  unfold remove_cache_item
  cases dictGet k c.metadata_cache <;> rfl

@[simp] theorem remove_cache_item_max (c : TTSCache) (k : List Char) :
    (remove_cache_item c k).max_cache_size_bytes = c.max_cache_size_bytes := by
  unfold remove_cache_item
  cases dictGet k c.metadata_cache <;> rfl

@[simp] theorem evictLoop_default_ttl (t : Int) :
    ∀ (items : List (Nat × (List Char × Nat))) (freed : Int) (c : TTSCache),
      (evictLoop t items freed c).default_ttl_hours = c.default_ttl_hours := by
  intro items
  induction items with
  | nil => intro freed c; rfl
  | cons hd rest ih =>
      intro freed c
      obtain ⟨i, k, la⟩ := hd
      unfold evictLoop
      by_cases h : freed ≥ t
      · rw [if_pos h]
      · rw [if_neg h, ih, remove_cache_item_default_ttl]

@[simp] theorem evictLoop_max (t : Int) :
    ∀ (items : List (Nat × (List Char × Nat))) (freed : Int) (c : TTSCache),
      (evictLoop t items freed c).max_cache_size_bytes = c.max_cache_size_bytes := by
  intro items
  induction items with
  | nil => intro freed c; rfl
  | cons hd rest ih =>
      intro freed c
      obtain ⟨i, k, la⟩ := hd
      unfold evictLoop
      by_cases h : freed ≥ t
      · rw [if_pos h]
      · rw [if_neg h, ih, remove_cache_item_max]

@[simp] theorem ensure_default_ttl (c : TTSCache) (n : Nat) :
    (ensure_cache_size_limit c n).default_ttl_hours = c.default_ttl_hours := by
  unfold ensure_cache_size_limit
  split
  · rfl
  · rw [evictLoop_default_ttl]

@[simp] theorem ensure_max (c : TTSCache) (n : Nat) :
    (ensure_cache_size_limit c n).max_cache_size_bytes = c.max_cache_size_bytes := by
  unfold ensure_cache_size_limit
  split
  · rfl
  · rw [evictLoop_max]

/-- Claim C6 helper: the state produced by `put` has the just-written
entry in both the metadata index and the blob directory. -/
theorem cachePut_state (c : TTSCache) (request : TTSRequest) (audio_data : List Nat)
    (ttl_hours : Option Nat) (now : Nat) :
    dictGet (generate_cache_key request) (cachePut c request audio_data ttl_hours now).1.metadata_cache =
      some { created_at := now, last_accessed := now, access_count := 0,
             file_size := some audio_data.length,
             ttl_hours := ttlOrDefault c.default_ttl_hours ttl_hours } ∧
    dictGet (generate_cache_key request) (cachePut c request audio_data ttl_hours now).1.files =
      some audio_data := by
  unfold cachePut
  constructor
  · simp only [dictGet_upsert_self, ensure_default_ttl]
  · simp only [dictGet_upsert_self]

/-- Claim C6: `put(req, bytes)` succeeds, and a `get(req)` performed on
the resulting state at any time at or before the entry's expiry instant
returns exactly `bytes` (no intervening operation, so nothing can have
evicted the entry). -/
theorem put_get_roundtrip (c : TTSCache) (request : TTSRequest) (audio_data : List Nat)
    (ttl_hours : Option Nat) (now now' : Nat)
    (hfresh : now' ≤ now + ttlOrDefault c.default_ttl_hours ttl_hours) :
    (cachePut c request audio_data ttl_hours now).2 = true ∧
    (cacheGet (cachePut c request audio_data ttl_hours now).1 request now').2 = some audio_data := by
  refine ⟨rfl, ?_⟩
  obtain ⟨hmd, hfile⟩ := cachePut_state c request audio_data ttl_hours now
  unfold cacheGet
  simp only [hmd, hfile]
  rw [if_neg (by simpa using Nat.not_lt.mpr hfresh)]

/-- Witness for C6 at a concrete input: budget 100 bytes, default TTL 24
hours, a three-byte blob written at hour 0 and read back at hour 24. -/
theorem put_get_roundtrip_witness :
    (24 ≤ 0 + ttlOrDefault (freshCache 100 24).default_ttl_hours none) ∧
    (cachePut (freshCache 100 24) ⟨['h', 'i'], ['v'], ['r'], ['o'], ['p']⟩ [1, 2, 3] none 0).2 = true ∧
    (cacheGet (cachePut (freshCache 100 24) ⟨['h', 'i'], ['v'], ['r'], ['o'], ['p']⟩
      [1, 2, 3] none 0).1 ⟨['h', 'i'], ['v'], ['r'], ['o'], ['p']⟩ 24).2 = some [1, 2, 3] :=
  ⟨by decide,
   put_get_roundtrip (freshCache 100 24) ⟨['h', 'i'], ['v'], ['r'], ['o'], ['p']⟩
     [1, 2, 3] none 0 24 (by decide)⟩

/-- Claim C3, counterexample.  Budget 4 bytes, fresh cache, `put` of a
5-byte blob: eviction cannot possibly free enough space (there is nothing
to evict and the blob alone exceeds the budget), yet the write goes
through — the blob is stored, the total of recorded sizes exceeds the budget, and
`put` returns success, not the claimed failure value. -/
theorem put_capacity_pressure_counterexample :
    (cachePut (freshCache 4 24) rqA [9, 9, 9, 9, 9] none 0).2 = true ∧
    dictGet (generate_cache_key rqA)
      (cachePut (freshCache 4 24) rqA [9, 9, 9, 9, 9] none 0).1.files = some [9, 9, 9, 9, 9] ∧
    4 < metaSize (cachePut (freshCache 4 24) rqA [9, 9, 9, 9, 9] none 0).1 := by
  refine ⟨rfl, by decide, by decide⟩

/-- Claim C3, amended: capacity pressure never makes `put` fail.  After
`_ensure_cache_size_limit` returns — whether or not it freed enough —
`put` unconditionally writes the blob and returns `True`; the only
`False` path in the source is an I/O exception, which capacity pressure
never raises. -/
theorem put_capacity_pressure_never_fails (c : TTSCache) (request : TTSRequest)
    (audio_data : List Nat) (ttl_hours : Option Nat) (now : Nat) :
    (cachePut c request audio_data ttl_hours now).2 = true ∧
    dictGet (generate_cache_key request)
      (cachePut c request audio_data ttl_hours now).1.files = some audio_data :=
  ⟨rfl, (cachePut_state c request audio_data ttl_hours now).2⟩

/-- Claim C2, counterexample.  A non-persistent session created with
`ttl_hours=0` is NOT absent on the very next `get`: `timedelta(
hours=ttl_hours) if ttl_hours else self._default_ttl` treats `0` as
falsy, so the session silently receives the default TTL (here 1 hour,
`expires_at = 1`) and the immediately following `get` returns it. -/
theorem session_ttl_zero_counterexample :
    (get_session
      (create_session (freshSessionManager 1 none) ['t'] ['v'] none (some 0) none false ['s'] 0).1
      ['s'] 0).2 =
    some { session_id := ['s'], text := ['t'], voice := ['v'], name := none,
           persistent := false, created_at := 0, expires_at := 1,
           sentences := none, metadata := [] } := by
  decide

/-- Claim C2, amended: `ttl_hours=0` is treated exactly like an
unspecified TTL (the default is applied, so the session survives until
the default TTL elapses); what IS absent on the very next `get` is a
non-persistent session whose `expires_at` is already past at the time of
the `get` — that `get` deletes it from the in-process tier and reports
not-found.  Conjunct 1: zero and `None` TTL produce identical creations.
Conjunct 2: an expired non-persistent in-memory record is deleted and
reported absent by `get`.  Conjunct 3: composition — create a
non-persistent session, `get` it at any instant strictly past its expiry,
and it is absent and removed. -/
theorem session_expiry_amended (sm : SessionManager) (text voice : List Char)
    (name : Option (List Char)) (metadata : Option (List (List Char × List Char)))
    (sid : List Char) (now : Nat)
    (hnd : NodupKeys sm.sessions) :
    (create_session sm text voice name (some 0) metadata false sid now =
      create_session sm text voice name none metadata false sid now) ∧
    (∀ (s : SessionData), dictGet sid sm.sessions = some s → s.persistent = false →
      now > s.expires_at →
      (get_session sm sid now).2 = none ∧
      dictGet sid (get_session sm sid now).1.sessions = none) ∧
    (∀ (ttl_hours : Option Nat) (now' : Nat),
      now' > now + ttlOrDefault sm.default_ttl_hours ttl_hours →
      (get_session (create_session sm text voice name ttl_hours metadata false sid now).1
        sid now').2 = none ∧
      dictGet sid
        (get_session (create_session sm text voice name ttl_hours metadata false sid now).1
          sid now').1.sessions = none) := by
  refine ⟨rfl, ?_, ?_⟩
  · intro s hs hp hexp
    have hexp' : is_expired s now = true := by
      unfold is_expired
      rw [hp]
      simpa using hexp
    unfold get_session
    simp only [hs, hexp', if_true]
    exact ⟨trivial, dictGet_erase_self hnd⟩
  · intro ttl_hours now' hlate
    have hcreate :
        (create_session sm text voice name ttl_hours metadata false sid now).1.sessions =
        dictUpsert sid
          { session_id := sid, text := text, voice := voice, name := name,
            persistent := false, created_at := now,
            expires_at := now + ttlOrDefault sm.default_ttl_hours ttl_hours,
            sentences := none, metadata := metadata.getD [] } sm.sessions := by
      unfold create_session
      simp
    have hexp' : is_expired
        { session_id := sid, text := text, voice := voice, name := name,
          persistent := false, created_at := now,
          expires_at := now + ttlOrDefault sm.default_ttl_hours ttl_hours,
          sentences := none, metadata := metadata.getD [] } now' = true := by
      unfold is_expired
      simpa using hlate
    unfold get_session
    simp only [hcreate, dictGet_upsert_self, hexp', if_true]
    exact ⟨trivial, dictGet_erase_self (nodupKeys_upsert _ _ hnd)⟩

/-- Witness for the amended C2 at a concrete input: default TTL 1 hour,
session created at hour 0 with the default TTL, fetched at hour 2. -/
theorem session_expiry_amended_witness :
    NodupKeys (freshSessionManager 1 none).sessions ∧
    (2 > 0 + ttlOrDefault (freshSessionManager 1 none).default_ttl_hours none) ∧
    ((get_session
        (create_session (freshSessionManager 1 none) ['t'] ['v'] none none none false ['s'] 0).1
        ['s'] 2).2 = none ∧
      dictGet ['s']
        (get_session
          (create_session (freshSessionManager 1 none) ['t'] ['v'] none none none false ['s'] 0).1
          ['s'] 2).1.sessions = none) :=
  ⟨List.nodup_nil, by decide,
   (session_expiry_amended (freshSessionManager 1 none) ['t'] ['v'] none none ['s'] 0
     List.nodup_nil).2.2 none 2 (by decide)⟩

/-- Reassembling the `chunk_size` slices of a byte string gives back the
byte string. -/
theorem flatten_chunksOf (l : List Nat) : (chunksOf l).flatten = l := by
  by_cases h : l = []
  · subst h
    rw [chunksOf]
    simp
  · rw [chunksOf, dif_neg h, List.flatten_cons,
        flatten_chunksOf (l.drop chunk_size), List.take_append_drop]
termination_by l.length
decreasing_by
  simp only [List.length_drop, chunk_size]
  have hl : 0 < l.length := List.length_pos.mpr h
  omega

/-- Claim C8: for every request, caching flag, cache state and backend
output, the concatenation of the chunks yielded by the streaming entry
point equals the buffer returned by the buffered entry point; and on a
(truthy) cache hit the stream is exactly the cached bytes cut into
`chunk_size` slices in order. -/
theorem stream_bytes_equivalent (request : TTSRequest) (use_cache : Bool)
    (c : TTSCache) (now : Nat) (backend : List TTSChunk) :
    ((generate_speech_stream request use_cache c now backend).1).flatten =
      (generate_speech_bytes request use_cache c now backend).1 ∧
    (∀ cached : List Nat, use_cache = true →
      (cacheGet c request now).2 = some cached → cached ≠ [] →
      (generate_speech_stream request use_cache c now backend).1 = chunksOf cached) := by
  constructor
  · unfold generate_speech_stream generate_speech_bytes
    by_cases huc : use_cache
    · simp only [if_pos huc]
      by_cases hull : ((cacheGet c request now).2).getD [] = []
      · simp only [hull]
        simp
      · simp only [if_pos hull]
        simp only [ne_eq, hull, not_false_iff, if_true, flatten_chunksOf]
    · simp only [if_neg huc]
      simp
  · intro cached huc hget hne
    unfold generate_speech_stream
    simp only [if_pos huc, hget]
    have : (some cached).getD ([] : List Nat) = cached := rfl
    rw [this, if_pos hne]

/-- Witness for C8 applied at a concrete cache hit: a three-byte blob is
written, streamed back as one chunk, and the stream slices it as
`chunksOf`. -/
theorem stream_bytes_equivalent_witness :
    (((generate_speech_stream rqA true (cachePut (freshCache 100 24) rqA [1, 2, 3] none 0).1 0
        []).1).flatten =
      (generate_speech_bytes rqA true (cachePut (freshCache 100 24) rqA [1, 2, 3] none 0).1 0
        []).1) ∧
    ((cacheGet (cachePut (freshCache 100 24) rqA [1, 2, 3] none 0).1 rqA 0).2 = some [1, 2, 3] ∧
      (generate_speech_stream rqA true (cachePut (freshCache 100 24) rqA [1, 2, 3] none 0).1 0
        []).1 = chunksOf [1, 2, 3]) :=
  ⟨(stream_bytes_equivalent rqA true (cachePut (freshCache 100 24) rqA [1, 2, 3] none 0).1 0 []).1,
   by decide,
   (stream_bytes_equivalent rqA true (cachePut (freshCache 100 24) rqA [1, 2, 3] none 0).1 0 []).2
     [1, 2, 3] rfl (by decide) (by decide)⟩

/-- Claim C9, counterexample.  The streaming entry point guards the cache
commit with `if use_cache and audio_chunks:` — a test on the CHUNK LIST,
not on the accumulated bytes.  A backend stream consisting of one empty
audio chunk therefore produces zero audio bytes yet IS committed: the
fresh cache ends up holding a zero-length blob for the request. -/
theorem zero_byte_commit_counterexample :
    (generate_speech_stream rqA true (freshCache 100 24) 0 [⟨audioTag, []⟩]).1 = [[]] ∧
    dictGet (generate_cache_key rqA)
      (generate_speech_stream rqA true (freshCache 100 24) 0 [⟨audioTag, []⟩]).2.files =
      some [] := by
  constructor
  · decide
  · decide

/-- Claim C9, amended.  Conjunct 1: a cached zero-length blob is falsy,
so both entry points fall through to the synthesis backend instead of
serving it.  Conjunct 2: the BUFFERED entry point never commits a
generation that produced zero audio bytes (its guard tests the
accumulated bytes).  The streaming entry point's guard tests only that at
least one audio chunk arrived, so a generation whose audio chunks are all
empty commits a zero-byte blob (see the counterexample). -/
theorem zero_byte_cache_amended (request : TTSRequest) (c : TTSCache) (now : Nat)
    (backend : List TTSChunk) :
    ((cacheGet c request now).2 = some [] →
      (generate_speech_stream request true c now backend).1 = audioDatas backend ∧
      (generate_speech_bytes request true c now backend).1 = (audioDatas backend).flatten) ∧
    (∀ use_cache : Bool, (audioDatas backend).flatten = [] →
      (generate_speech_bytes request use_cache c now backend).2 =
        (if use_cache then (cacheGet c request now).1 else c)) := by
  constructor
  · intro hget
    constructor
    · unfold generate_speech_stream
      simp [hget]
    · unfold generate_speech_bytes
      simp [hget]
  · intro use_cache hflat
    cases use_cache with
    | false =>
        unfold generate_speech_bytes
        simp
    | true =>
        unfold generate_speech_bytes
        by_cases hull : ((cacheGet c request now).2).getD [] = []
        · simp [hull, hflat]
        · simp [hull]

/-- Witness for the amended C9: a cache really holding a zero-length blob
(written by the stream-path counterexample scenario) is bypassed, and a
silent backend leads to no commit on the buffered path. -/
theorem zero_byte_cache_amended_witness :
    ((cacheGet (generate_speech_stream rqA true (freshCache 100 24) 0 [⟨audioTag, []⟩]).2
        rqA 0).2 = some []) ∧
    ((generate_speech_stream rqA true
        (generate_speech_stream rqA true (freshCache 100 24) 0 [⟨audioTag, []⟩]).2 0
        [⟨audioTag, [7]⟩]).1 = audioDatas [⟨audioTag, [7]⟩]) ∧
    ((generate_speech_bytes rqA true (freshCache 100 24) 0 []).2 =
      (if true then (cacheGet (freshCache 100 24) rqA 0).1 else freshCache 100 24)) := by
  refine ⟨by decide, ?_, ?_⟩
  · exact ((zero_byte_cache_amended rqA
      (generate_speech_stream rqA true (freshCache 100 24) 0 [⟨audioTag, []⟩]).2 0
      [⟨audioTag, [7]⟩]).1 (by decide)).1
  · exact (zero_byte_cache_amended rqA (freshCache 100 24) 0 []).2 true (by decide)

/-! Statistics bookkeeping lemmas for claim C10. -/

theorem remove_cache_item_stats (c : TTSCache) (k : List Char) :
    (remove_cache_item c k).stats.hits = c.stats.hits ∧
    (remove_cache_item c k).stats.misses = c.stats.misses ∧
    (remove_cache_item c k).stats.total_requests = c.stats.total_requests ∧
    (0 ≤ c.stats.cache_size_bytes → 0 ≤ (remove_cache_item c k).stats.cache_size_bytes) ∧
    (0 ≤ c.stats.files_count → 0 ≤ (remove_cache_item c k).stats.files_count) := by
  unfold remove_cache_item
  cases dictGet k c.metadata_cache with
  | none => exact ⟨rfl, rfl, rfl, fun h => h, fun h => h⟩
  | some md =>
      refine ⟨rfl, rfl, rfl, fun _ => ?_, fun _ => ?_⟩
      · exact le_max_left 0 _
      · exact le_max_left 0 _

theorem evictLoop_stats (t : Int) :
    ∀ (items : List (Nat × (List Char × Nat))) (freed : Int) (c : TTSCache),
      (evictLoop t items freed c).stats.hits = c.stats.hits ∧
      (evictLoop t items freed c).stats.misses = c.stats.misses ∧
      (evictLoop t items freed c).stats.total_requests = c.stats.total_requests ∧
      (0 ≤ c.stats.cache_size_bytes → 0 ≤ (evictLoop t items freed c).stats.cache_size_bytes) ∧
      (0 ≤ c.stats.files_count → 0 ≤ (evictLoop t items freed c).stats.files_count) := by
  intro items
  induction items with
  | nil => exact fun freed c => ⟨rfl, rfl, rfl, fun h => h, fun h => h⟩
  | cons hd rest ih =>
      intro freed c
      obtain ⟨i, k, la⟩ := hd
      unfold evictLoop
      by_cases h : freed ≥ t
      · rw [if_pos h]
        exact ⟨rfl, rfl, rfl, fun h => h, fun h => h⟩
      · rw [if_neg h]
        obtain ⟨h1, h2, h3, h4, h5⟩ := ih (freed + ((((dictGet k c.metadata_cache).map recordedSize).getD 0 : Nat) : Int)) (remove_cache_item c k)
        obtain ⟨r1, r2, r3, r4, r5⟩ := remove_cache_item_stats c k
        exact ⟨h1.trans r1, h2.trans r2, h3.trans r3,
               fun hsz => h4 (r4 hsz), fun hf => h5 (r5 hf)⟩

theorem ensure_stats (c : TTSCache) (n : Nat) :
    (ensure_cache_size_limit c n).stats.hits = c.stats.hits ∧
    (ensure_cache_size_limit c n).stats.misses = c.stats.misses ∧
    (ensure_cache_size_limit c n).stats.total_requests = c.stats.total_requests ∧
    (0 ≤ c.stats.cache_size_bytes → 0 ≤ (ensure_cache_size_limit c n).stats.cache_size_bytes) ∧
    (0 ≤ c.stats.files_count → 0 ≤ (ensure_cache_size_limit c n).stats.files_count) := by
  unfold ensure_cache_size_limit
  split
  · exact ⟨rfl, rfl, rfl, fun h => h, fun h => h⟩
  · exact evictLoop_stats _ _ _ _

/-- Claim C10, per-operation accounting for `get`: every lookup
increments `total_requests` by exactly one and exactly one of
`hits`/`misses` by exactly one. -/
theorem cacheGet_counts (c : TTSCache) (request : TTSRequest) (now : Nat) :
    (cacheGet c request now).1.stats.total_requests = c.stats.total_requests + 1 ∧
    (((cacheGet c request now).1.stats.hits = c.stats.hits + 1 ∧
      (cacheGet c request now).1.stats.misses = c.stats.misses) ∨
     ((cacheGet c request now).1.stats.hits = c.stats.hits ∧
      (cacheGet c request now).1.stats.misses = c.stats.misses + 1)) := by
  simp only [cacheGet]
  split
  · exact ⟨rfl, Or.inr ⟨rfl, rfl⟩⟩
  · split
    · obtain ⟨r1, r2, r3, _, _⟩ := remove_cache_item_stats
        { c with stats := { c.stats with total_requests := c.stats.total_requests + 1 } }
        (generate_cache_key request)
      exact ⟨r3, Or.inr ⟨r1, congrArg (fun x => x + 1) r2⟩⟩
    · split
      · obtain ⟨r1, r2, r3, _, _⟩ := remove_cache_item_stats
          { c with stats := { c.stats with total_requests := c.stats.total_requests + 1 } }
          (generate_cache_key request)
        exact ⟨r3, Or.inr ⟨r1, congrArg (fun x => x + 1) r2⟩⟩
      · exact ⟨rfl, Or.inl ⟨rfl, rfl⟩⟩

theorem cacheGet_statsInv (c : TTSCache) (request : TTSRequest) (now : Nat)
    (hInv : StatsInv c) : StatsInv (cacheGet c request now).1 := by
  obtain ⟨hp, hsz, hf⟩ := hInv
  obtain ⟨ht, hcount⟩ := cacheGet_counts c request now
  refine ⟨?_, ?_, ?_⟩
  · rcases hcount with ⟨h1, h2⟩ | ⟨h1, h2⟩ <;> rw [h1, h2, ht] <;> omega
  · -- the size counter is only ever touched through `remove_cache_item`
    simp only [cacheGet]
    split
    · exact hsz
    · split
      · exact (remove_cache_item_stats _ _).2.2.2.1 hsz
      · split
        · exact (remove_cache_item_stats _ _).2.2.2.1 hsz
        · exact hsz
  · simp only [cacheGet]
    split
    · exact hf
    · split
      · exact (remove_cache_item_stats _ _).2.2.2.2 hf
      · split
        · exact (remove_cache_item_stats _ _).2.2.2.2 hf
        · exact hf

theorem cachePut_statsInv (c : TTSCache) (request : TTSRequest) (audio_data : List Nat)
    (ttl_hours : Option Nat) (now : Nat) (hInv : StatsInv c) :
    StatsInv (cachePut c request audio_data ttl_hours now).1 := by
  obtain ⟨hp, hsz, hf⟩ := hInv
  obtain ⟨e1, e2, e3, e4, e5⟩ := ensure_stats c audio_data.length
  refine ⟨?_, ?_, ?_⟩
  · unfold cachePut
    simp only [e1, e2, e3, hp]
  · unfold cachePut
    simp only []
    have := e4 hsz
    positivity
  · unfold cachePut
    simp only []
    have := e5 hf
    positivity

theorem foldl_remove_statsInv (c : TTSCache) (ks : List (List Char)) :
    (ks.foldl remove_cache_item c).stats.hits = c.stats.hits ∧
    (ks.foldl remove_cache_item c).stats.misses = c.stats.misses ∧
    (ks.foldl remove_cache_item c).stats.total_requests = c.stats.total_requests ∧
    (0 ≤ c.stats.cache_size_bytes → 0 ≤ (ks.foldl remove_cache_item c).stats.cache_size_bytes) ∧
    (0 ≤ c.stats.files_count → 0 ≤ (ks.foldl remove_cache_item c).stats.files_count) := by
  induction ks generalizing c with
  | nil => exact ⟨rfl, rfl, rfl, fun h => h, fun h => h⟩
  | cons k ks ih =>
      simp only [List.foldl_cons]
      obtain ⟨h1, h2, h3, h4, h5⟩ := ih (remove_cache_item c k)
      obtain ⟨r1, r2, r3, r4, r5⟩ := remove_cache_item_stats c k
      exact ⟨h1.trans r1, h2.trans r2, h3.trans r3,
             fun hsz => h4 (r4 hsz), fun hf => h5 (r5 hf)⟩

theorem cacheStep_statsInv (c : TTSCache) (op : CacheOp) (hInv : StatsInv c) :
    StatsInv (cacheStep c op) := by
  cases op with
  | getOp request now => exact cacheGet_statsInv c request now hInv
  | putOp request audio_data ttl_hours now =>
      exact cachePut_statsInv c request audio_data ttl_hours now hInv
  | clearExpiredOp now =>
      obtain ⟨hp, hsz, hf⟩ := hInv
      obtain ⟨h1, h2, h3, h4, h5⟩ := foldl_remove_statsInv c
        ((c.metadata_cache.filter (fun kv => now > kv.2.created_at + kv.2.ttl_hours)).map (·.1))
      exact ⟨by simp only [cacheStep, clear_expired, h1, h2, h3, hp], h4 hsz, h5 hf⟩
  | clearAllOp =>
      obtain ⟨hp, hsz, hf⟩ := hInv
      obtain ⟨h1, h2, h3, _, _⟩ := foldl_remove_statsInv c (c.metadata_cache.map (·.1))
      refine ⟨?_, ?_, ?_⟩
      · simp only [cacheStep, clear_all, h1, h2, h3, hp]
      · simp [cacheStep, clear_all]
      · simp [cacheStep, clear_all]

theorem runCacheOps_statsInv (c : TTSCache) (ops : List CacheOp) (hInv : StatsInv c) :
    StatsInv (runCacheOps c ops) := by
  unfold runCacheOps
  induction ops generalizing c with
  | nil => exact hInv
  | cons op ops ih =>
      rw [List.foldl_cons]
      exact ih _ (cacheStep_statsInv c op hInv)

/-- Claim C10: starting from a fresh cache, after every sequence of
`get`/`put`/`clear_expired`/`clear_all` operations the statistics satisfy
`hits + misses = total_requests` and both `cache_size_bytes` and
`files_count` are non-negative; moreover each `get` increments
`total_requests` by one and exactly one of `hits`/`misses` by one. -/
theorem cache_stats_invariant :
    (∀ (max_bytes ttl : Nat) (ops : List CacheOp),
      StatsInv (runCacheOps (freshCache max_bytes ttl) ops)) ∧
    (∀ (c : TTSCache) (request : TTSRequest) (now : Nat),
      (cacheGet c request now).1.stats.total_requests = c.stats.total_requests + 1 ∧
      (((cacheGet c request now).1.stats.hits = c.stats.hits + 1 ∧
        (cacheGet c request now).1.stats.misses = c.stats.misses) ∨
       ((cacheGet c request now).1.stats.hits = c.stats.hits ∧
        (cacheGet c request now).1.stats.misses = c.stats.misses + 1))) := by
  constructor
  · intro max_bytes ttl ops
    exact runCacheOps_statsInv (freshCache max_bytes ttl) ops ⟨rfl, le_refl 0, le_refl 0⟩
  · exact cacheGet_counts

/-! Further association-list lemmas used by the session-tier invariant. -/

theorem dictGet_erase_some {V : Type} {k k' : List Char} {l : List (List Char × V)} {v : V}
    (hnd : NodupKeys l) (h : dictGet k (dictErase k' l) = some v) :
    dictGet k l = some v := by
  by_cases hkk : k = k'
  · subst hkk
    rw [dictGet_erase_self hnd] at h
    exact absurd h (by simp)
  · rwa [dictGet_erase_ne _ hkk] at h

theorem dictGet_upsert_cases {V : Type} {k k' : List Char} {v w : V} {l : List (List Char × V)}
    (h : dictGet k (dictUpsert k' v l) = some w) :
    (k = k' ∧ w = v) ∨ (k ≠ k' ∧ dictGet k l = some w) := by
  by_cases hkk : k = k'
  · subst hkk
    rw [dictGet_upsert_self] at h
    exact Or.inl ⟨rfl, (Option.some.inj h).symm⟩
  · rw [dictGet_upsert_ne _ _ hkk] at h
    exact Or.inr ⟨hkk, h⟩

theorem nodupKeys_foldl_erase {V : Type} (ks : List (List Char)) {l : List (List Char × V)}
    (hnd : NodupKeys l) :
    NodupKeys (ks.foldl (fun acc sid => dictErase sid acc) l) := by
  induction ks generalizing l with
  | nil => exact hnd
  | cons k ks ih =>
      rw [List.foldl_cons]
      exact ih (nodupKeys_erase k hnd)

theorem dictGet_foldl_erase_some {V : Type} (ks : List (List Char)) {k : List Char}
    {l : List (List Char × V)} {v : V} (hnd : NodupKeys l)
    (h : dictGet k (ks.foldl (fun acc sid => dictErase sid acc) l) = some v) :
    dictGet k l = some v := by
  induction ks generalizing l with
  | nil => exact h
  | cons k' ks ih =>
      rw [List.foldl_cons] at h
      exact dictGet_erase_some hnd (ih (nodupKeys_erase k' hnd) h)

/-- The `update_session` field rewrite never touches the storage-tier
tag. -/
theorem applySessionUpdate_persistent (s : SessionData)
    (sentences : Option (List (List Char)))
    (metadata : Option (List (List Char × List Char))) :
    (applySessionUpdate s sentences metadata).persistent = s.persistent := by
  unfold applySessionUpdate
  cases sentences <;> cases metadata <;> simp only [] <;> split <;> rfl

/-- Session operations never change whether the external store is
configured. -/
theorem sessionStep_store_isSome (sm : SessionManager) (op : SessionOp) :
    (sessionStep sm op).persistent_store.isSome = sm.persistent_store.isSome := by
  cases op with
  | createOp text voice name ttl_hours metadata persistent sid now =>
      simp only [sessionStep, create_session]
      (repeat' split) <;> simp
  | getOp sid now =>
      simp only [sessionStep, get_session]
      (repeat' split) <;> rfl
  | updateOp sid sentences metadata now =>
      simp only [sessionStep, update_session]
      (repeat' split) <;> simp_all
  | deleteOp sid =>
      simp only [sessionStep, delete_session]
      (repeat' split) <;> simp_all
  | cleanupOp now => rfl

theorem dictGet_erase_none {V : Type} {k k' : List Char} {l : List (List Char × V)}
    (hnd : NodupKeys l) (h : dictGet k l = none) :
    dictGet k (dictErase k' l) = none := by
  by_cases hkk : k = k'
  · subst hkk
    exact dictGet_erase_self hnd
  · rwa [dictGet_erase_ne _ hkk]

theorem dictGet_foldl_erase_none {V : Type} (ks : List (List Char)) {k : List Char}
    {l : List (List Char × V)} (hnd : NodupKeys l) (h : dictGet k l = none) :
    dictGet k (ks.foldl (fun acc sid => dictErase sid acc) l) = none := by
  induction ks generalizing l with
  | nil => exact h
  | cons k' ks ih =>
      rw [List.foldl_cons]
      exact ih (nodupKeys_erase k' hnd) (dictGet_erase_none hnd h)

/-- One step of any session operation preserves the two-tier separation
invariant, as long as the external store is configured and the created
ids are fresh. -/
theorem sessionStep_tierInv (sm : SessionManager) (op : SessionOp)
    (hconf : sm.persistent_store.isSome = true)
    (hInv : TierInv sm) (hfresh : sessionOpFresh sm op = true) :
    TierInv (sessionStep sm op) := by
  obtain ⟨hndm, htagm, hstore⟩ := hInv
  obtain ⟨st, hst⟩ := Option.isSome_iff_exists.mp hconf
  obtain ⟨hnds, htags, hdisj⟩ := hstore st hst
  cases op with
  | createOp text voice name ttl_hours metadata persistent sid now =>
      simp only [sessionOpFresh, Bool.and_eq_true, Option.isNone_iff_eq_none, hst,
        Option.getD_some] at hfresh
      obtain ⟨hfm, hfs⟩ := hfresh
      simp only [sessionStep, create_session]
      cases persistent with
      | true =>
          rw [if_pos ⟨rfl, hconf⟩]
          refine ⟨hndm, htagm, ?_⟩
          intro st' hst'
          rw [hst] at hst'
          simp only [Option.map_some] at hst'
          obtain hst'' := Option.some.inj hst'
          subst hst''
          refine ⟨nodupKeys_upsert _ _ hnds, ?_, ?_⟩
          · intro sid' s' h'
            rcases dictGet_upsert_cases h' with ⟨hk, hv⟩ | ⟨hk, hv⟩
            · subst hv
              rfl
            · exact htags sid' s' hv
          · intro sid' hsome
            have hne : sid' ≠ sid := by
              intro he
              subst he
              rw [hfm] at hsome
              simp at hsome
            rw [dictGet_upsert_ne _ _ hne]
            exact hdisj sid' hsome
      | false =>
          rw [if_neg (by simp)]
          refine ⟨nodupKeys_upsert _ _ hndm, ?_, ?_⟩
          · intro sid' s' h'
            rcases dictGet_upsert_cases h' with ⟨hk, hv⟩ | ⟨hk, hv⟩
            · subst hv
              rfl
            · exact htagm sid' s' hv
          · intro st' hst'
            have hst'' : st' = st := by
              rw [hst] at hst'
              exact (Option.some.inj hst').symm
            subst hst''
            refine ⟨hnds, htags, ?_⟩
            intro sid' hsome
            by_cases hk : sid' = sid
            · subst hk
              exact hfs
            · obtain ⟨v, hv⟩ := Option.isSome_iff_exists.mp hsome
              rcases dictGet_upsert_cases hv with ⟨hk', _⟩ | ⟨_, hv'⟩
              · exact absurd hk' hk
              · exact hdisj sid' (by rw [hv']; rfl)
  | getOp sid now =>
      simp only [sessionStep, get_session]
      split
      · split
        · refine ⟨nodupKeys_erase _ hndm, ?_, ?_⟩
          · intro sid' s' h'
            exact htagm sid' s' (dictGet_erase_some hndm h')
          · intro st' hst'
            have hst'' : st' = st := by
              rw [hst] at hst'
              exact (Option.some.inj hst').symm
            subst hst''
            refine ⟨hnds, htags, ?_⟩
            intro sid' hsome
            obtain ⟨v, hv⟩ := Option.isSome_iff_exists.mp hsome
            exact hdisj sid' (by rw [dictGet_erase_some hndm hv]; rfl)
        · exact ⟨hndm, htagm, hstore⟩
      · split
        · split
          · exact ⟨hndm, htagm, hstore⟩
          · exact ⟨hndm, htagm, hstore⟩
        · exact ⟨hndm, htagm, hstore⟩
  | updateOp sid sentences metadata now =>
      simp only [sessionStep, update_session]
      split
      · rename_i session hmem
        split
        · exact ⟨hndm, htagm, hstore⟩
        · refine ⟨nodupKeys_upsert _ _ hndm, ?_, ?_⟩
          · intro sid' s' h'
            rcases dictGet_upsert_cases h' with ⟨hk, hv⟩ | ⟨hk, hv⟩
            · subst hv
              rw [applySessionUpdate_persistent]
              exact htagm sid session hmem
            · exact htagm sid' s' hv
          · intro st' hst'
            have hst'' : st' = st := by
              rw [hst] at hst'
              exact (Option.some.inj hst').symm
            subst hst''
            refine ⟨hnds, htags, ?_⟩
            intro sid' hsome
            by_cases hk : sid' = sid
            · subst hk
              exact hdisj sid' (by rw [hmem]; rfl)
            · obtain ⟨v, hv⟩ := Option.isSome_iff_exists.mp hsome
              rcases dictGet_upsert_cases hv with ⟨hk', _⟩ | ⟨_, hv'⟩
              · exact absurd hk' hk
              · exact hdisj sid' (by rw [hv']; rfl)
      · rename_i hmem
        split
        · rename_i store hstoreq
          have hstq : store = st := by
            rw [hst] at hstoreq
            exact (Option.some.inj hstoreq).symm
          subst hstq
          split
          · rename_i session hsess
            refine ⟨hndm, htagm, ?_⟩
            intro st' hst'
            obtain hst'' := (Option.some.inj hst').symm
            subst hst''
            refine ⟨nodupKeys_upsert _ _ hnds, ?_, ?_⟩
            · intro sid' s' h'
              rcases dictGet_upsert_cases h' with ⟨hk, hv⟩ | ⟨hk, hv⟩
              · subst hv
                rw [applySessionUpdate_persistent]
                exact htags sid session hsess
              · exact htags sid' s' hv
            · intro sid' hsome
              have hne : sid' ≠ sid := by
                intro he
                subst he
                rw [hmem] at hsome
                simp at hsome
              rw [dictGet_upsert_ne _ _ hne]
              exact hdisj sid' hsome
          · exact ⟨hndm, htagm, hstore⟩
        · exact ⟨hndm, htagm, hstore⟩
  | deleteOp sid =>
      simp only [sessionStep, delete_session]
      have hnd' : NodupKeys (if (dictGet sid sm.sessions).isSome = true then
          dictErase sid sm.sessions else sm.sessions) := by
        split
        · exact nodupKeys_erase _ hndm
        · exact hndm
      have hget' : ∀ (k : List Char) (v : SessionData),
          dictGet k (if (dictGet sid sm.sessions).isSome = true then
            dictErase sid sm.sessions else sm.sessions) = some v →
          dictGet k sm.sessions = some v := by
        intro k v h'
        split at h'
        · exact dictGet_erase_some hndm h'
        · exact h'
      split
      · rename_i store hstoreq
        have hstq : store = st := by
          rw [hst] at hstoreq
          exact (Option.some.inj hstoreq).symm
        subst hstq
        split
        · refine ⟨hnd', ?_, ?_⟩
          · intro sid' s' h'
            exact htagm sid' s' (hget' sid' s' h')
          · intro st' hst'
            obtain hst'' := (Option.some.inj hst').symm
            subst hst''
            refine ⟨nodupKeys_erase _ hnds, ?_, ?_⟩
            · intro sid' s' h'
              exact htags sid' s' (dictGet_erase_some hnds h')
            · intro sid' hsome
              obtain ⟨v, hv⟩ := Option.isSome_iff_exists.mp hsome
              exact dictGet_erase_none hnds
                (hdisj sid' (by rw [hget' sid' v hv]; rfl))
        · refine ⟨hnd', ?_, ?_⟩
          · intro sid' s' h'
            exact htagm sid' s' (hget' sid' s' h')
          · intro st' hst'
            have hst'' : st' = store := by
              rw [hst] at hst'
              exact (Option.some.inj hst').symm
            subst hst''
            refine ⟨hnds, htags, ?_⟩
            intro sid' hsome
            obtain ⟨v, hv⟩ := Option.isSome_iff_exists.mp hsome
            exact hdisj sid' (by rw [hget' sid' v hv]; rfl)
      · rename_i hstoreq
        rw [hstoreq] at hst
        exact absurd hst (by simp)
  | cleanupOp now =>
      simp only [sessionStep, cleanup_expired]
      refine ⟨nodupKeys_foldl_erase _ hndm, ?_, ?_⟩
      · intro sid' s' h'
        exact htagm sid' s' (dictGet_foldl_erase_some _ hndm h')
      · intro st' hst'
        have hst'' : st' = st := by
          rw [hst] at hst'
          exact (Option.some.inj hst').symm
        subst hst''
        refine ⟨hnds, htags, ?_⟩
        intro sid' hsome
        obtain ⟨v, hv⟩ := Option.isSome_iff_exists.mp hsome
        exact hdisj sid' (by rw [dictGet_foldl_erase_some _ hndm hv]; rfl)

theorem runSessionOps_store_isSome (sm : SessionManager) (ops : List SessionOp) :
    (runSessionOps sm ops).persistent_store.isSome = sm.persistent_store.isSome := by
  unfold runSessionOps
  induction ops generalizing sm with
  | nil => rfl
  | cons op ops ih => rw [List.foldl_cons, ih, sessionStep_store_isSome]

/-- Claim C4, counterexample.  With the external store NOT configured,
`create_session(..., persistent=True)` silently falls into the `else`
branch and stores the record — still tagged persistent — in the
in-process map, violating "a persistent record lives only in the external
store" (the claim is asserted "with or without the external persistent
store configured"). -/
theorem session_tier_counterexample :
    (create_session (freshSessionManager 1 none) ['t'] ['v'] none none none true ['s'] 0).2.persistent
        = true ∧
    dictGet ['s']
        (create_session (freshSessionManager 1 none) ['t'] ['v'] none none none true ['s'] 0).1.sessions
        = some (create_session (freshSessionManager 1 none) ['t'] ['v'] none none none true ['s'] 0).2 ∧
    (create_session (freshSessionManager 1 none) ['t'] ['v'] none none none true ['s'] 0).1.persistent_store
        = none := by
  refine ⟨rfl, by decide, rfl⟩

/-- Claim C4, amended: WHEN the external persistent store is configured,
the two-tier separation is an invariant of every operation sequence with
fresh creation ids — records tagged persistent live only in the external
store, records tagged non-persistent live only in the in-process map, and
no id is present in both tiers.  (When the store is not configured,
persistent creations fall back to the in-process tier; see the
counterexample.) -/
theorem session_tier_invariant_amended (sm : SessionManager) (ops : List SessionOp)
    (hconf : sm.persistent_store.isSome = true)
    (hInv : TierInv sm) (hfresh : sessionRunFresh sm ops = true) :
    TierInv (runSessionOps sm ops) := by
  unfold runSessionOps
  induction ops generalizing sm with
  | nil => exact hInv
  | cons op ops ih =>
      rw [List.foldl_cons]
      simp only [sessionRunFresh, Bool.and_eq_true] at hfresh
      exact ih _ (by rw [sessionStep_store_isSome]; exact hconf)
        (sessionStep_tierInv sm op hconf hInv hfresh.1) hfresh.2

/-- Witness for the amended C4: a concrete configured manager running a
persistent create, a transient create, a read and a delete keeps the
two-tier invariant. -/
theorem session_tier_invariant_witness :
    TierInv (runSessionOps (freshSessionManager 1 (some []))
      [SessionOp.createOp ['t'] ['v'] none none none true ['a'] 0,
       SessionOp.createOp ['t'] ['v'] none none none false ['b'] 0,
       SessionOp.getOp ['a'] 0,
       SessionOp.deleteOp ['b']]) :=
  session_tier_invariant_amended _ _ rfl
    ⟨List.nodup_nil,
     fun _sid s h => by simp [dictGet] at h,
     fun st hst => by
       cases hst
       exact ⟨List.nodup_nil,
              fun _sid s h => by simp [dictGet] at h,
              fun _sid h => by simp [dictGet] at h⟩⟩
    (by decide)

/-! Size accounting for claim C1. -/

/-- The recorded size freed by removing `k`, as the eviction loop reads
it (`metadata.get("file_size", 0)`, zero when the key is absent). -/
def removedSizeOf (c : TTSCache) (k : List Char) : Nat :=
  ((dictGet k c.metadata_cache).map recordedSize).getD 0

theorem metaSize_erase_eq (k : List Char) (l : List (List Char × CacheMeta)) :
    ((dictErase k l).map (fun kv => recordedSize kv.2)).sum
      + ((dictGet k l).map recordedSize).getD 0
      = (l.map (fun kv => recordedSize kv.2)).sum := by
  induction l with
  | nil => simp [dictErase, dictGet]
  | cons hd tl ih =>
      by_cases h : k = hd.1
      · simp only [dictErase, dictGet, if_pos h, List.map_cons, List.sum_cons,
          Option.map_some', Option.getD_some]
        omega
      · simp only [dictErase, dictGet, if_neg h, List.map_cons, List.sum_cons]
        omega

theorem metaSize_upsert_le (k : List Char) (md : CacheMeta)
    (l : List (List Char × CacheMeta)) :
    ((dictUpsert k md l).map (fun kv => recordedSize kv.2)).sum ≤
      (l.map (fun kv => recordedSize kv.2)).sum + recordedSize md := by
  induction l with
  | nil => simp [dictUpsert]
  | cons hd tl ih =>
      by_cases h : k = hd.1
      · simp only [dictUpsert, if_pos h, List.map_cons, List.sum_cons]
        omega
      · simp only [dictUpsert, if_neg h, List.map_cons, List.sum_cons]
        omega

/-- Removal frees exactly the recorded size from the aggregate (as a
`Nat` identity), and the freed amount never exceeds the aggregate. -/
theorem metaSize_remove (c : TTSCache) (k : List Char) :
    metaSize (remove_cache_item c k) + removedSizeOf c k = metaSize c := by
  unfold metaSize remove_cache_item removedSizeOf
  cases hmd : dictGet k c.metadata_cache with
  | none =>
      simp only [hmd, Option.map_none', Option.getD_none, Nat.add_zero]
  | some md =>
      simp only [hmd, Option.map_some', Option.getD_some]
      have h2 := metaSize_erase_eq k c.metadata_cache
      rw [hmd] at h2
      simp only [Option.map_some', Option.getD_some] at h2
      exact h2

theorem removedSizeOf_le (c : TTSCache) (k : List Char) :
    removedSizeOf c k ≤ metaSize c := by
  have := metaSize_remove c k
  omega

theorem remove_stats_size (c : TTSCache) (k : List Char) :
    (remove_cache_item c k).stats.cache_size_bytes
      = match dictGet k c.metadata_cache with
        | some md => max 0 (c.stats.cache_size_bytes - (recordedSize md : Int))
        | none => c.stats.cache_size_bytes := by
  unfold remove_cache_item
  cases dictGet k c.metadata_cache <;> rfl

/-- Removal preserves the counter over-approximation. -/
theorem remove_sizeInv (c : TTSCache) (k : List Char) (hInv : SizeInv c) :
    SizeInv (remove_cache_item c k) := by
  obtain ⟨hnd, hle⟩ := hInv
  constructor
  · unfold remove_cache_item
    cases dictGet k c.metadata_cache with
    | none => exact hnd
    | some md => exact nodupKeys_erase _ hnd
  · have hms := metaSize_remove c k
    unfold removedSizeOf at hms
    cases hmd : dictGet k c.metadata_cache with
    | none =>
        rw [hmd] at hms
        simp only [Option.map_none', Option.getD_none, Nat.add_zero] at hms
        simp only [remove_stats_size, hmd]
        rw [hms]
        exact hle
    | some md =>
        rw [hmd] at hms
        simp only [Option.map_some', Option.getD_some] at hms
        simp only [remove_stats_size, hmd]
        refine le_trans ?_ (le_max_right 0 _)
        omega

theorem nodup_remove (c : TTSCache) (k : List Char)
    (hnd : NodupKeys c.metadata_cache) :
    NodupKeys (remove_cache_item c k).metadata_cache := by
  unfold remove_cache_item
  cases dictGet k c.metadata_cache with
  | none => exact hnd
  | some md => exact nodupKeys_erase _ hnd

/-- `metadata_cache` of the state after removal, explicitly. -/
theorem remove_metadata (c : TTSCache) (k : List Char) :
    (remove_cache_item c k).metadata_cache
      = match dictGet k c.metadata_cache with
        | some _ => dictErase k c.metadata_cache
        | none => c.metadata_cache := by
  unfold remove_cache_item
  cases dictGet k c.metadata_cache <;> rfl

theorem dictGet_isSome_of_mem_keys {V : Type} {k : List Char} {l : List (List Char × V)}
    (h : k ∈ l.map Prod.fst) : (dictGet k l).isSome = true := by
  induction l with
  | nil => simp at h
  | cons hd tl ih =>
      by_cases h' : k = hd.1
      · simp [dictGet, h']
      · simp only [List.map_cons, List.mem_cons] at h
        rcases h with h | h
        · exact absurd h h'
        · simp only [dictGet, if_neg h']
          exact ih h

theorem not_mem_keys_remove (c : TTSCache) (k : List Char)
    (hnd : NodupKeys c.metadata_cache) :
    k ∉ (remove_cache_item c k).metadata_cache.map Prod.fst := by
  intro hmem
  rw [remove_metadata] at hmem
  cases hmd : dictGet k c.metadata_cache with
  | none =>
      rw [hmd] at hmem
      have := dictGet_isSome_of_mem_keys hmem
      rw [hmd] at this
      simp at this
  | some md =>
      rw [hmd] at hmem
      have := dictGet_isSome_of_mem_keys hmem
      rw [dictGet_erase_self hnd] at this
      simp at this

theorem mem_keys_remove {c : TTSCache} {k k' : List Char}
    (h : k' ∈ (remove_cache_item c k).metadata_cache.map Prod.fst) :
    k' ∈ c.metadata_cache.map Prod.fst := by
  rw [remove_metadata] at h
  cases hmd : dictGet k c.metadata_cache with
  | none => rwa [hmd] at h
  | some md =>
      rw [hmd] at h
      exact mem_keys_erase h

/-- The eviction loop drives the aggregate recorded size below
`metaSize c - (toFree - freed)` — or exhausts the metadata entirely. -/
theorem evictLoop_metaSize (t : Int) :
    ∀ (items : List (Nat × (List Char × Nat))) (freed : Int) (c : TTSCache),
      NodupKeys c.metadata_cache →
      (∀ k, k ∈ c.metadata_cache.map Prod.fst → k ∈ items.map (fun x => x.2.1)) →
      (metaSize (evictLoop t items freed c) : Int) ≤
        max ((metaSize c : Int) - (t - freed)) 0 := by
  intro items
  induction items with
  | nil =>
      intro freed c hnd hsub
      have hempty : c.metadata_cache = [] := by
        cases hc : c.metadata_cache with
        | nil => rfl
        | cons hd tl =>
            exfalso
            have := hsub hd.1 (by rw [hc, List.map_cons]; exact List.mem_cons_self _ _)
            simp at this
      unfold evictLoop
      have : metaSize c = 0 := by
        unfold metaSize
        rw [hempty]
        rfl
      rw [this]
      simp only [Nat.cast_zero]
      exact le_max_right _ _
  | cons hd rest ih =>
      intro freed c hnd hsub
      obtain ⟨i, k, la⟩ := hd
      unfold evictLoop
      by_cases hstop : freed ≥ t
      · rw [if_pos hstop]
        refine le_trans ?_ (le_max_left _ _)
        have : t - freed ≤ 0 := by omega
        omega
      · rw [if_neg hstop]
        have hfs : (((dictGet k c.metadata_cache).map recordedSize).getD 0) = removedSizeOf c k := rfl
        rw [hfs]
        have hnd' : NodupKeys (remove_cache_item c k).metadata_cache := nodup_remove c k hnd
        have hsub' : ∀ k', k' ∈ (remove_cache_item c k).metadata_cache.map Prod.fst →
            k' ∈ rest.map (fun x => x.2.1) := by
          intro k' hk'
          have hk'c := mem_keys_remove hk'
          have := hsub k' hk'c
          simp only [List.map_cons, List.mem_cons] at this
          rcases this with he | hr
          · exfalso
            rw [he] at hk'
            exact not_mem_keys_remove c k hnd hk'
          · exact hr
        have hih := ih (freed + (removedSizeOf c k : Int)) (remove_cache_item c k) hnd' hsub'
        have hms := metaSize_remove c k
        have hcast : (metaSize (remove_cache_item c k) : Int)
            = (metaSize c : Int) - (removedSizeOf c k : Int) := by omega
        rw [hcast] at hih
        refine le_trans hih ?_
        apply max_le_max_right
        omega

theorem evictLoop_sizeInv (t : Int) :
    ∀ (items : List (Nat × (List Char × Nat))) (freed : Int) (c : TTSCache),
      SizeInv c → SizeInv (evictLoop t items freed c) := by
  intro items
  induction items with
  | nil => exact fun freed c h => h
  | cons hd rest ih =>
      intro freed c hInv
      obtain ⟨i, k, la⟩ := hd
      unfold evictLoop
      by_cases hstop : freed ≥ t
      · rw [if_pos hstop]
        exact hInv
      · rw [if_neg hstop]
        exact ih _ _ (remove_sizeInv c k hInv)

theorem mem_keys_sortedCacheItems (c : TTSCache) (k : List Char)
    (h : k ∈ c.metadata_cache.map Prod.fst) :
    k ∈ (sortedCacheItems c).map (fun x => x.2.1) := by
  rw [List.mem_map] at h
  obtain ⟨kv, hkv, hk⟩ := h
  have h1 : (kv.1, kv.2.last_accessed) ∈
      c.metadata_cache.map (fun kv => (kv.1, kv.2.last_accessed)) :=
    List.mem_map.mpr ⟨kv, hkv, rfl⟩
  obtain ⟨i, hi⟩ := List.mem_iff_getElem?.mp h1
  have h2 : (i, (kv.1, kv.2.last_accessed)) ∈
      (c.metadata_cache.map (fun kv => (kv.1, kv.2.last_accessed))).enum :=
    List.mem_enum_iff_getElem?.mpr hi
  have h3 : (i, (kv.1, kv.2.last_accessed)) ∈ sortedCacheItems c :=
    ((List.perm_insertionSort evictLE _).mem_iff).mpr h2
  exact hk ▸ List.mem_map.mpr ⟨(i, (kv.1, kv.2.last_accessed)), h3, rfl⟩

/-- After `_ensure_cache_size_limit` the recorded total leaves room for
the incoming blob within `max(budget, blob size)`: within the budget when
the blob fits it at all, and within the blob's own size otherwise (the
loop evicts everything and the blob is still written). -/
theorem ensure_metaSize (c : TTSCache) (n : Nat) (hInv : SizeInv c) :
    (metaSize (ensure_cache_size_limit c n) : Int) + n ≤
      max (c.max_cache_size_bytes : Int) n := by
  obtain ⟨hnd, hle⟩ := hInv
  unfold ensure_cache_size_limit
  split
  · rename_i hfits
    omega
  · rename_i hover
    have hloop := evictLoop_metaSize
      (c.stats.cache_size_bytes + (n : Int) - (c.max_cache_size_bytes : Int))
      (sortedCacheItems c) 0 c hnd
      (fun k hk => mem_keys_sortedCacheItems c k hk)
    show (metaSize (evictLoop
        (c.stats.cache_size_bytes + (n : Int) - (c.max_cache_size_bytes : Int))
        (sortedCacheItems c) 0 c) : Int) + n ≤ max (c.max_cache_size_bytes : Int) n
    omega

theorem ensure_sizeInv (c : TTSCache) (n : Nat) (hInv : SizeInv c) :
    SizeInv (ensure_cache_size_limit c n) := by
  unfold ensure_cache_size_limit
  split
  · exact hInv
  · exact evictLoop_sizeInv _ _ _ _ hInv

/-- Claim C1 (amended), per-put form: a `put` of a blob no larger than
the budget leaves the recorded total within the budget, and preserves
the size well-formedness. -/
theorem cachePut_budget (c : TTSCache) (request : TTSRequest) (audio_data : List Nat)
    (ttl_hours : Option Nat) (now : Nat) (hInv : SizeInv c)
    (hsmall : audio_data.length ≤ c.max_cache_size_bytes) :
    metaSize (cachePut c request audio_data ttl_hours now).1 ≤ c.max_cache_size_bytes ∧
    SizeInv (cachePut c request audio_data ttl_hours now).1 := by
  have hens := ensure_metaSize c audio_data.length hInv
  obtain ⟨hnd1, hle1⟩ := ensure_sizeInv c audio_data.length hInv
  have hup : metaSize (cachePut c request audio_data ttl_hours now).1 ≤
      metaSize (ensure_cache_size_limit c audio_data.length) + audio_data.length := by
    have h := metaSize_upsert_le (generate_cache_key request)
        { created_at := now, last_accessed := now, access_count := 0,
          file_size := some audio_data.length,
          ttl_hours := ttlOrDefault
            (ensure_cache_size_limit c audio_data.length).default_ttl_hours ttl_hours }
        (ensure_cache_size_limit c audio_data.length).metadata_cache
    exact h
  have hstats : (cachePut c request audio_data ttl_hours now).1.stats.cache_size_bytes
      = (ensure_cache_size_limit c audio_data.length).stats.cache_size_bytes
        + (audio_data.length : Int) := rfl
  refine ⟨by omega, ?_, by omega⟩
  have hnd2 : NodupKeys (dictUpsert (generate_cache_key request)
      { created_at := now, last_accessed := now, access_count := 0,
        file_size := some audio_data.length,
        ttl_hours := ttlOrDefault
          (ensure_cache_size_limit c audio_data.length).default_ttl_hours ttl_hours }
      (ensure_cache_size_limit c audio_data.length).metadata_cache) :=
    nodupKeys_upsert _ _ hnd1
  exact hnd2

theorem cachePut_max (c : TTSCache) (request : TTSRequest) (audio_data : List Nat)
    (ttl_hours : Option Nat) (now : Nat) :
    (cachePut c request audio_data ttl_hours now).1.max_cache_size_bytes
      = c.max_cache_size_bytes := by
  have : (cachePut c request audio_data ttl_hours now).1.max_cache_size_bytes
      = (ensure_cache_size_limit c audio_data.length).max_cache_size_bytes := rfl
  rw [this, ensure_max]

theorem runPuts_budget_aux (ps : List (TTSRequest × List Nat × Option Nat × Nat))
    (B : Nat) :
    ∀ (c : TTSCache), SizeInv c → c.max_cache_size_bytes = B → metaSize c ≤ B →
      (∀ p ∈ ps, p.2.1.length ≤ B) → metaSize (runPuts c ps) ≤ B := by
  induction ps with
  | nil => exact fun c _ _ h _ => h
  | cons p ps ih =>
      intro c hInv hB hsz hsmall
      unfold runPuts
      have hps : p.2.1.length ≤ c.max_cache_size_bytes := by
        rw [hB]
        exact hsmall p (List.mem_cons_self _ _)
      obtain ⟨h1, h2⟩ := cachePut_budget c p.1 p.2.1 p.2.2.1 p.2.2.2 hInv hps
      exact ih _ h2 (by rw [cachePut_max, hB]) (by rw [← hB]; exact h1)
        (fun q hq => hsmall q (List.mem_cons_of_mem _ hq))

/-- Claim C1, counterexample.  Budget 4 bytes, fresh cache, one `put` of
a 5-byte blob: after the put completes the sum of recorded sizes is 5,
strictly above the configured maximum — the claim explicitly includes the
single-oversized-blob case, and the code writes such a blob after
evicting everything. -/
theorem budget_invariant_counterexample :
    metaSize (cachePut (freshCache 4 24) rqB [1, 2, 3, 4, 5] none 0).1 = 5 ∧
    (freshCache 4 24).max_cache_size_bytes = 4 := by
  constructor
  · decide
  · rfl

/-- Claim C1, amended: after each `put` the sum of recorded sizes stays
within the configured maximum PROVIDED each written blob alone fits the
budget (first conjunct: one put from any well-formed state; second
conjunct: any sequence of puts from a fresh cache).  A single blob larger
than the budget is written whole after eviction empties the cache,
leaving the total above the maximum (see the counterexample). -/
theorem budget_invariant_amended :
    (∀ (c : TTSCache) (request : TTSRequest) (audio_data : List Nat)
        (ttl_hours : Option Nat) (now : Nat), SizeInv c →
      audio_data.length ≤ c.max_cache_size_bytes →
      metaSize (cachePut c request audio_data ttl_hours now).1 ≤ c.max_cache_size_bytes) ∧
    (∀ (B ttl : Nat) (ps : List (TTSRequest × List Nat × Option Nat × Nat)),
      (∀ p ∈ ps, p.2.1.length ≤ B) →
      metaSize (runPuts (freshCache B ttl) ps) ≤ B) := by
  constructor
  · intro c request audio_data ttl_hours now hInv hsmall
    exact (cachePut_budget c request audio_data ttl_hours now hInv hsmall).1
  · intro B ttl ps hsmall
    exact runPuts_budget_aux ps B (freshCache B ttl)
      ⟨List.nodup_nil, by simp [metaSize, freshCache]⟩ rfl (by simp [metaSize, freshCache]) hsmall

/-- Witness for the amended C1: budget 10, two three-byte blobs written
in sequence keep the recorded total within the budget. -/
theorem budget_invariant_amended_witness :
    (∀ p ∈ [(rqA, ([1, 2, 3] : List Nat), (none : Option Nat), 0),
            (rqB, ([4, 5, 6] : List Nat), (none : Option Nat), 1)], p.2.1.length ≤ 10) ∧
    metaSize (runPuts (freshCache 10 24)
      [(rqA, [1, 2, 3], none, 0), (rqB, [4, 5, 6], none, 1)]) ≤ 10 :=
  ⟨by decide,
   budget_invariant_amended.2 10 24
     [(rqA, [1, 2, 3], none, 0), (rqB, [4, 5, 6], none, 1)] (by decide)⟩

/-! Index/lookup correspondence lemmas for the eviction-order claim. -/

theorem dictGet_of_getElem? {V : Type} {l : List (List Char × V)} (hnd : NodupKeys l)
    {i : Nat} {k : List Char} {v : V} (h : l[i]? = some (k, v)) :
    dictGet k l = some v := by
  induction l generalizing i with
  | nil => simp at h
  | cons hd tl ih =>
      unfold NodupKeys at hnd
      simp only [List.map_cons, List.nodup_cons] at hnd
      cases i with
      | zero =>
          simp only [List.getElem?_cons_zero, Option.some.injEq] at h
          rw [h]
          simp [dictGet]
      | succ i =>
          simp only [List.getElem?_cons_succ] at h
          have htl : dictGet k tl = some v := ih hnd.2 h
          have hkne : k ≠ hd.1 := by
            intro he
            subst he
            exact hnd.1 (dictGet_mem_keys htl)
          simp [dictGet, hkne, htl]

theorem keyIndex_of_getElem? {V : Type} {l : List (List Char × V)} (hnd : NodupKeys l)
    {i : Nat} {k : List Char} {v : V} (h : l[i]? = some (k, v)) :
    keyIndex k l = i := by
  induction l generalizing i with
  | nil => simp at h
  | cons hd tl ih =>
      unfold NodupKeys at hnd
      simp only [List.map_cons, List.nodup_cons] at hnd
      cases i with
      | zero =>
          simp only [List.getElem?_cons_zero, Option.some.injEq] at h
          rw [h]
          simp [keyIndex]
      | succ i =>
          simp only [List.getElem?_cons_succ] at h
          have htl : dictGet k tl = some v := dictGet_of_getElem? hnd.2 h
          have hkne : k ≠ hd.1 := by
            intro he
            subst he
            exact hnd.1 (dictGet_mem_keys htl)
          simp only [keyIndex, if_neg hkne]
          rw [ih hnd.2 h]

/-- With unique keys, a `dictGet` hit pins down the decorated eviction
candidate: its position is the key's index in insertion order and its
sort key is the entry's `last_accessed`. -/
theorem dictGet_locate {V : Type} {l : List (List Char × V)} {k : List Char} {v : V}
    (h : dictGet k l = some v) :
    ∃ i, l[i]? = some (k, v) ∧ keyIndex k l = i := by
  induction l with
  | nil => simp [dictGet] at h
  | cons hd tl ih =>
      by_cases hk : k = hd.1
      · refine ⟨0, ?_, ?_⟩
        · simp only [dictGet, if_pos hk, Option.some.injEq] at h
          have : hd = (k, v) := by
            obtain ⟨h1, h2⟩ := hd
            simp only [Prod.mk.injEq]
            exact ⟨hk.symm, h⟩
          rw [this]
          simp
        · simp [keyIndex, hk]
      · simp only [dictGet, if_neg hk] at h
        obtain ⟨i, hi, hidx⟩ := ih h
        refine ⟨i + 1, by simpa using hi, ?_⟩
        simp only [keyIndex, if_neg hk]
        rw [hidx]

/-- With unique keys, a `dictGet` hit pins down the decorated eviction
candidate: its position is the key's index in insertion order and its
sort key is the entry's `last_accessed`. -/
theorem dictGet_decorated_mem (c : TTSCache) {k : List Char} {md : CacheMeta}
    (hnd : NodupKeys c.metadata_cache) (h : dictGet k c.metadata_cache = some md) :
    (keyIndex k c.metadata_cache, (k, md.last_accessed)) ∈
      (c.metadata_cache.map (fun kv => (kv.1, kv.2.last_accessed))).enum := by
  obtain ⟨i, hi, hidx⟩ := dictGet_locate h
  rw [hidx]
  rw [List.mem_enum_iff_getElem?]
  show (c.metadata_cache.map (fun kv => (kv.1, kv.2.last_accessed)))[i]? =
    some (k, md.last_accessed)
  rw [List.getElem?_map, hi]
  rfl

/-- Conversely, any decorated candidate corresponds to the (unique) entry
under its key: the position is the key's index and the sort key is that
entry's `last_accessed`. -/
theorem decorated_mem_dictGet (c : TTSCache) {x : Nat × (List Char × Nat)}
    (hnd : NodupKeys c.metadata_cache)
    (hx : x ∈ (c.metadata_cache.map (fun kv => (kv.1, kv.2.last_accessed))).enum) :
    ∃ md, dictGet x.2.1 c.metadata_cache = some md ∧
      md.last_accessed = x.2.2 ∧
      keyIndex x.2.1 c.metadata_cache = x.1 := by
  rw [List.mem_enum_iff_getElem?] at hx
  rw [List.getElem?_map] at hx
  cases hkv : c.metadata_cache[x.1]? with
  | none => rw [hkv] at hx; simp at hx
  | some kv =>
      rw [hkv] at hx
      simp only [Option.map_some', Option.some.injEq] at hx
      have hkey : kv.1 = x.2.1 := congrArg Prod.fst hx
      have hla : kv.2.last_accessed = x.2.2 := congrArg Prod.snd hx
      have hget : dictGet x.2.1 c.metadata_cache = some kv.2 :=
        dictGet_of_getElem? hnd (by
          rw [← hkey]
          simpa using hkv)
      refine ⟨kv.2, hget, hla, ?_⟩
      exact keyIndex_of_getElem? hnd (by rw [hkv, ← hkey])

theorem evictLoop_nodup (t : Int) :
    ∀ (items : List (Nat × (List Char × Nat))) (freed : Int) (c : TTSCache),
      NodupKeys c.metadata_cache →
      NodupKeys (evictLoop t items freed c).metadata_cache := by
  intro items
  induction items with
  | nil => exact fun freed c h => h
  | cons hd rest ih =>
      intro freed c hnd
      obtain ⟨i, k, la⟩ := hd
      unfold evictLoop
      by_cases hstop : freed ≥ t
      · rw [if_pos hstop]
        exact hnd
      · rw [if_neg hstop]
        exact ih _ _ (nodup_remove c k hnd)

/-- The eviction loop only removes entries: whatever it leaves behind was
present before, unchanged. -/
theorem evictLoop_get_some (t : Int) :
    ∀ (items : List (Nat × (List Char × Nat))) (freed : Int) (c : TTSCache),
      NodupKeys c.metadata_cache →
      ∀ (k : List Char) (md : CacheMeta),
        dictGet k (evictLoop t items freed c).metadata_cache = some md →
        dictGet k c.metadata_cache = some md := by
  intro items
  induction items with
  | nil => exact fun freed c _ k md h => h
  | cons hd rest ih =>
      intro freed c hnd k md h
      obtain ⟨i, k', la⟩ := hd
      unfold evictLoop at h
      by_cases hstop : freed ≥ t
      · rw [if_pos hstop] at h
        exact h
      · rw [if_neg hstop] at h
        have h2 := ih _ _ (nodup_remove c k' hnd) k md h
        rw [remove_metadata] at h2
        cases hmd : dictGet k' c.metadata_cache with
        | none => rwa [hmd] at h2
        | some md' =>
            rw [hmd] at h2
            exact dictGet_erase_some hnd h2

/-- If the loop removed `a` but kept `b`, then `a`'s decorated candidate
precedes `b`'s in the sorted candidate list. -/
theorem evictLoop_order (t : Int) :
    ∀ (items : List (Nat × (List Char × Nat))) (freed : Int) (c : TTSCache),
      NodupKeys c.metadata_cache →
      items.Pairwise evictLE →
      ∀ (a b : List Char),
        (dictGet a c.metadata_cache).isSome = true →
        dictGet a (evictLoop t items freed c).metadata_cache = none →
        (dictGet b (evictLoop t items freed c).metadata_cache).isSome = true →
        ∀ xb, xb ∈ items → xb.2.1 = b →
        ∃ xa, xa ∈ items ∧ xa.2.1 = a ∧ evictLE xa xb := by
  intro items
  induction items with
  | nil =>
      intro freed c hnd hPW a b ha hrem hkeep xb hxb hxbb
      unfold evictLoop at hrem
      rw [hrem] at ha
      simp at ha
  | cons x rest ih =>
      intro freed c hnd hPW a b ha hrem hkeep xb hxb hxbb
      obtain ⟨hPWhead, hPWtail⟩ := List.pairwise_cons.mp hPW
      have hab : a ≠ b := by
        intro he
        subst he
        unfold evictLoop at hrem hkeep
        rw [hrem] at hkeep
        simp at hkeep
      unfold evictLoop at hrem hkeep
      by_cases hstop : freed ≥ t
      · rw [if_pos hstop] at hrem
        rw [hrem] at ha
        simp at ha
      · rw [if_neg hstop] at hrem hkeep
        by_cases hxa : x.2.1 = a
        · refine ⟨x, List.mem_cons_self _ _, hxa, ?_⟩
          rcases List.mem_cons.mp hxb with hxbx | hxbr
          · exfalso
            rw [hxbx] at hxbb
            rw [hxbb] at hxa
            exact hab (hxa.symm ▸ rfl)
          · exact hPWhead xb hxbr
        · have hxa' : a ≠ x.2.1 := fun he => hxa he.symm
          have ha' : (dictGet a (remove_cache_item c x.2.1).metadata_cache).isSome = true := by
            rw [remove_metadata]
            cases hmd : dictGet x.2.1 c.metadata_cache with
            | none => exact ha
            | some md' => rw [dictGet_erase_ne _ hxa']; exact ha
          rcases List.mem_cons.mp hxb with hxbx | hxbr
          · exfalso
            -- b IS the head key, which the loop removes for good
            have hbrem : dictGet b (remove_cache_item c x.2.1).metadata_cache = none := by
              rw [hxbx] at hxbb
              rw [← hxbb]
              rw [remove_metadata]
              cases hmd : dictGet x.2.1 c.metadata_cache with
              | none => exact hmd
              | some md' => exact dictGet_erase_self hnd
            obtain ⟨md, hmd⟩ := Option.isSome_iff_exists.mp hkeep
            have := evictLoop_get_some t rest _ _ (nodup_remove c x.2.1 hnd) b md hmd
            rw [hbrem] at this
            exact absurd this (by simp)
          · obtain ⟨xa, hxar, hxaa, hle⟩ := ih _ _ (nodup_remove c x.2.1 hnd) hPWtail a b
              ha' hrem hkeep xb hxbr hxbb
            exact ⟨xa, List.mem_cons_of_mem _ hxar, hxaa, hle⟩

theorem dictGet_remove_ne (c : TTSCache) {k k' : List Char} (h : k ≠ k') :
    dictGet k (remove_cache_item c k').metadata_cache = dictGet k c.metadata_cache := by
  rw [remove_metadata]
  cases dictGet k' c.metadata_cache with
  | none => rfl
  | some md => exact dictGet_erase_ne _ h

theorem keyIndex_inj (c : TTSCache) {a b : List Char} {ma mb : CacheMeta}
    (hma : dictGet a c.metadata_cache = some ma)
    (hmb : dictGet b c.metadata_cache = some mb)
    (hidx : keyIndex a c.metadata_cache = keyIndex b c.metadata_cache) : a = b := by
  obtain ⟨ia, hia, hidxa⟩ := dictGet_locate hma
  obtain ⟨ib, hib, hidxb⟩ := dictGet_locate hmb
  rw [hidxa, hidxb] at hidx
  subst hidx
  rw [hia] at hib
  exact congrArg Prod.fst (Option.some.inj hib)

/-- Claim C7, general part: removals by `_ensure_cache_size_limit` are
LRU-first — any removed entry precedes any surviving entry in the order
"`last_accessed` ascending, ties by insertion order". -/
theorem ensure_eviction_lru (c : TTSCache) (n : Nat)
    (hnd : NodupKeys c.metadata_cache)
    (a b : List Char) (ma mb : CacheMeta)
    (hma : dictGet a c.metadata_cache = some ma)
    (hmb : dictGet b c.metadata_cache = some mb)
    (hrem : dictGet a (ensure_cache_size_limit c n).metadata_cache = none)
    (hkeep : (dictGet b (ensure_cache_size_limit c n).metadata_cache).isSome = true) :
    ma.last_accessed < mb.last_accessed ∨
    (ma.last_accessed = mb.last_accessed ∧
      keyIndex a c.metadata_cache < keyIndex b c.metadata_cache) := by
  unfold ensure_cache_size_limit at hrem hkeep
  by_cases hfits : c.stats.cache_size_bytes + (n : Int) ≤ (c.max_cache_size_bytes : Int)
  · rw [if_pos hfits] at hrem
    rw [hma] at hrem
    exact absurd hrem (by simp)
  · rw [if_neg hfits] at hrem hkeep
    have hsorted : (sortedCacheItems c).Pairwise evictLE :=
      List.sorted_insertionSort evictLE _
    have hxb : (keyIndex b c.metadata_cache, (b, mb.last_accessed)) ∈ sortedCacheItems c :=
      ((List.perm_insertionSort evictLE _).mem_iff).mpr (dictGet_decorated_mem c hnd hmb)
    obtain ⟨xa, hxa_mem, hxa_key, hle⟩ := evictLoop_order _ (sortedCacheItems c) 0 c hnd
      hsorted a b (by rw [hma]; rfl) hrem hkeep
      (keyIndex b c.metadata_cache, (b, mb.last_accessed)) hxb rfl
    have hxa_enum := ((List.perm_insertionSort evictLE _).mem_iff).mp hxa_mem
    obtain ⟨md, hmd, hla, hidx⟩ := decorated_mem_dictGet c hnd hxa_enum
    rw [hxa_key] at hmd hidx
    rw [hma] at hmd
    obtain hmd' := Option.some.inj hmd
    subst hmd'
    unfold evictLE at hle
    simp only at hle
    rcases hle with hlt | ⟨heq, hle'⟩
    · left
      omega
    · right
      refine ⟨by omega, ?_⟩
      rw [hidx]
      rcases Nat.lt_or_ge xa.1 (keyIndex b c.metadata_cache) with h | h
      · exact h
      · exfalso
        have hxa1 : xa.1 = keyIndex b c.metadata_cache := le_antisymm hle' h
        have hab : a = b := by
          apply keyIndex_inj c hma hmb
          rw [hidx, hxa1]
        subst hab
        rw [hrem] at hkeep
        simp at hkeep

/-- Claim C7, read-path part: `get` never touches any other key's
metadata entry — in particular it never evicts for budget reasons. -/
theorem cacheGet_no_evict (c : TTSCache) (request : TTSRequest) (now : Nat)
    (k : List Char) (hk : k ≠ generate_cache_key request) :
    dictGet k (cacheGet c request now).1.metadata_cache = dictGet k c.metadata_cache := by
  simp only [cacheGet]
  split
  · rfl
  · split
    · exact dictGet_remove_ne _ hk
    · split
      · exact dictGet_remove_ne _ hk
      · exact dictGet_upsert_ne _ _ hk

/-- Claim C7: eviction removes entries in ascending `last_accessed`
order with ties broken by insertion order, and is triggered only by
budget pressure during `put`, never by `get`; in the concrete scenario
with entries A (t=1), B (t=2), C (t=3) and a write needing exactly one
eviction, exactly A is removed. -/
theorem eviction_order :
    (∀ (c : TTSCache) (n : Nat), NodupKeys c.metadata_cache →
      ∀ (a b : List Char) (ma mb : CacheMeta),
        dictGet a c.metadata_cache = some ma →
        dictGet b c.metadata_cache = some mb →
        dictGet a (ensure_cache_size_limit c n).metadata_cache = none →
        (dictGet b (ensure_cache_size_limit c n).metadata_cache).isSome = true →
        ma.last_accessed < mb.last_accessed ∨
        (ma.last_accessed = mb.last_accessed ∧
          keyIndex a c.metadata_cache < keyIndex b c.metadata_cache)) ∧
    (∀ (c : TTSCache) (request : TTSRequest) (now : Nat) (k : List Char),
      k ≠ generate_cache_key request →
      dictGet k (cacheGet c request now).1.metadata_cache = dictGet k c.metadata_cache) ∧
    (dictGet ['a'] (cachePut evictDemoCache rqA [7, 7, 7, 7] none 5).1.metadata_cache = none ∧
     (dictGet ['b'] (cachePut evictDemoCache rqA [7, 7, 7, 7] none 5).1.metadata_cache).isSome
        = true ∧
     (dictGet ['c'] (cachePut evictDemoCache rqA [7, 7, 7, 7] none 5).1.metadata_cache).isSome
        = true ∧
     (dictGet (generate_cache_key rqA)
        (cachePut evictDemoCache rqA [7, 7, 7, 7] none 5).1.metadata_cache).isSome = true) := by
  refine ⟨fun c n hnd a b ma mb hma hmb hrem hkeep =>
      ensure_eviction_lru c n hnd a b ma mb hma hmb hrem hkeep,
    cacheGet_no_evict, ?_, ?_, ?_, ?_⟩
  · decide
  · decide
  · decide
  · decide

/-- Witness for C7: the general LRU statement applied to the concrete
scenario (A removed, C kept), and the read-path statement applied
concretely. -/
theorem eviction_order_witness :
    (({ created_at := 0, last_accessed := 1, access_count := 0,
        file_size := some 4, ttl_hours := 24 } : CacheMeta).last_accessed <
      ({ created_at := 0, last_accessed := 3, access_count := 0,
         file_size := some 4, ttl_hours := 24 } : CacheMeta).last_accessed ∨
     (({ created_at := 0, last_accessed := 1, access_count := 0,
         file_size := some 4, ttl_hours := 24 } : CacheMeta).last_accessed =
       ({ created_at := 0, last_accessed := 3, access_count := 0,
          file_size := some 4, ttl_hours := 24 } : CacheMeta).last_accessed ∧
       keyIndex ['a'] evictDemoCache.metadata_cache <
         keyIndex ['c'] evictDemoCache.metadata_cache)) ∧
    dictGet ['b'] (cacheGet evictDemoCache rqA 5).1.metadata_cache =
      dictGet ['b'] evictDemoCache.metadata_cache :=
  ⟨eviction_order.1 evictDemoCache 4 (by decide) ['a'] ['c'] _ _ (by decide) (by decide)
     (by decide) (by decide),
   eviction_order.2.1 evictDemoCache rqA 5 ['b'] (by decide)⟩

/-! Fingerprint injectivity (claim C5). -/

theorem unhex_hexDigit (n : Nat) (h : n < 32) :
    16 * unhexDigit (hexDigit (n / 16)) + unhexDigit (hexDigit (n % 16)) = n := by
  have hall : (List.range 32).all
      (fun m => 16 * unhexDigit (hexDigit (m / 16)) + unhexDigit (hexDigit (m % 16)) == m)
      = true := by decide
  have h2 := List.all_eq_true.mp hall n (List.mem_range.mpr h)
  simpa using h2

/-- The decoder undoes the escaper with any continuation: the escaping is
prefix-unambiguous. -/
theorem unescape1_jsonEscapeChar (c : Char) (rest : List Char) :
    unescape1 (jsonEscapeChar c ++ rest) = some (c, rest) := by
  unfold jsonEscapeChar
  by_cases h1 : c = dq
  · subst h1
    rw [if_pos rfl]
    rfl
  · rw [if_neg h1]
    by_cases h2 : c = '\\'
    · subst h2
      rw [if_pos rfl]
      rfl
    · rw [if_neg h2]
      by_cases h3 : c = '\u0008'
      · subst h3
        rw [if_pos rfl]
        rfl
      · rw [if_neg h3]
        by_cases h4 : c = '\u0009'
        · subst h4
          rw [if_pos rfl]
          rfl
        · rw [if_neg h4]
          by_cases h5 : c = '\u000a'
          · subst h5
            rw [if_pos rfl]
            rfl
          · rw [if_neg h5]
            by_cases h6 : c = '\u000c'
            · subst h6
              rw [if_pos rfl]
              rfl
            · rw [if_neg h6]
              by_cases h7 : c = '\u000d'
              · subst h7
                rw [if_pos rfl]
                rfl
              · rw [if_neg h7]
                by_cases h8 : c.toNat < 32
                · rw [if_pos h8]
                  show some (Char.ofNat (16 * unhexDigit (hexDigit (c.toNat / 16))
                      + unhexDigit (hexDigit (c.toNat % 16))), rest) = some (c, rest)
                  rw [unhex_hexDigit c.toNat h8, Char.ofNat_toNat]
                · rw [if_neg h8]
                  show unescape1 (c :: rest) = some (c, rest)
                  simp only [unescape1]
                  rw [if_neg h2, if_neg h1]

theorem jsonEscapeChar_append_inj {x y : Char} {a b : List Char}
    (h : jsonEscapeChar x ++ a = jsonEscapeChar y ++ b) : x = y ∧ a = b := by
  have hx := unescape1_jsonEscapeChar x a
  rw [h, unescape1_jsonEscapeChar y b] at hx
  obtain h2 := Option.some.inj hx
  exact ⟨(congrArg Prod.fst h2).symm, (congrArg Prod.snd h2).symm⟩

/-- A bare quote never starts an escaped stream. -/
theorem unescape1_quote (a : List Char) : unescape1 (dq :: a) = none := by
  simp only [unescape1]
  rw [if_neg (show ¬(dq = '\\') from by decide)]
  simp

/-- Escaped string bodies terminated by an unescaped quote are uniquely
decodable: the body and the continuation are both determined. -/
theorem jsonEscape_append_inj : ∀ (xs ys a b : List Char),
    jsonEscape xs ++ dq :: a = jsonEscape ys ++ dq :: b → xs = ys ∧ a = b := by
  intro xs
  induction xs with
  | nil =>
      intro ys a b h
      cases ys with
      | nil =>
          simp only [jsonEscape, List.nil_append, List.cons.injEq, true_and] at h
          exact ⟨rfl, h⟩
      | cons y ys =>
          exfalso
          simp only [jsonEscape, List.nil_append, List.append_assoc] at h
          have h2 := unescape1_jsonEscapeChar y (jsonEscape ys ++ dq :: b)
          rw [← h, unescape1_quote] at h2
          exact absurd h2 (by simp)
  | cons x xs ih =>
      intro ys a b h
      cases ys with
      | nil =>
          exfalso
          simp only [jsonEscape, List.nil_append, List.append_assoc] at h
          have h2 := unescape1_jsonEscapeChar x (jsonEscape xs ++ dq :: a)
          rw [h, unescape1_quote] at h2
          exact absurd h2 (by simp)
      | cons y ys =>
          simp only [jsonEscape, List.append_assoc] at h
          obtain ⟨hxy, hrest⟩ := jsonEscapeChar_append_inj h
          obtain ⟨h1, h2⟩ := ih ys a b hrest
          exact ⟨by rw [hxy, h1], h2⟩

/-- The canonical serialization determines the stripped text and all four
prosody/voice parameters. -/
theorem cache_string_inj (r₁ r₂ : TTSRequest) (h : cache_string r₁ = cache_string r₂) :
    pyStrip r₁.text = pyStrip r₂.text ∧ r₁.voice = r₂.voice ∧
    r₁.rate = r₂.rate ∧ r₁.volume = r₂.volume ∧ r₁.pitch = r₂.pitch := by
  unfold cache_string jsonField at h
  simp only [List.cons.injEq, true_and] at h
  obtain ⟨hpitch, h⟩ := jsonEscape_append_inj _ _ _ _ h
  simp only [List.cons.injEq, true_and] at h
  obtain ⟨hrate, h⟩ := jsonEscape_append_inj _ _ _ _ h
  simp only [List.cons.injEq, true_and] at h
  obtain ⟨htext, h⟩ := jsonEscape_append_inj _ _ _ _ h
  simp only [List.cons.injEq, true_and] at h
  obtain ⟨hvoice, h⟩ := jsonEscape_append_inj _ _ _ _ h
  simp only [List.cons.injEq, true_and] at h
  obtain ⟨hvolume, _⟩ := jsonEscape_append_inj _ _ _ _ h
  exact ⟨htext, hvoice, hrate, hvolume, hpitch⟩

theorem dropWhile_append_of_all {p : Char → Bool} (l₁ l₂ : List Char)
    (h : ∀ c ∈ l₁, p c = true) : (l₁ ++ l₂).dropWhile p = l₂.dropWhile p := by
  induction l₁ with
  | nil => rfl
  | cons c cs ih =>
      rw [List.cons_append, List.dropWhile_cons, if_pos (h c (List.mem_cons_self _ _))]
      exact ih (fun c' hc' => h c' (List.mem_cons_of_mem _ hc'))

theorem dropWhile_append_of_ne_nil {p : Char → Bool} (l₁ l₂ : List Char)
    (h : l₁.dropWhile p ≠ []) : (l₁ ++ l₂).dropWhile p = l₁.dropWhile p ++ l₂ := by
  induction l₁ with
  | nil => exact absurd rfl h
  | cons c cs ih =>
      by_cases hp : p c = true
      · have h' : cs.dropWhile p ≠ [] := by
          rwa [List.dropWhile_cons, if_pos hp] at h
        rw [List.cons_append, List.dropWhile_cons, if_pos hp, ih h',
          List.dropWhile_cons, if_pos hp]
      · rw [List.cons_append, List.dropWhile_cons, if_neg hp,
          List.dropWhile_cons, if_neg hp]
        rfl

/-- Leading whitespace is irrelevant to `str.strip()`. -/
theorem pyStrip_front (ws t : List Char) (h : ∀ c ∈ ws, c.isWhitespace = true) :
    pyStrip (ws ++ t) = pyStrip t := by
  unfold pyStrip
  rw [dropWhile_append_of_all ws t h]

/-- Trailing whitespace is irrelevant to `str.strip()`. -/
theorem pyStrip_back (t ws : List Char) (h : ∀ c ∈ ws, c.isWhitespace = true) :
    pyStrip (t ++ ws) = pyStrip t := by
  unfold pyStrip
  by_cases hnil : t.dropWhile Char.isWhitespace = []
  · have ht := List.dropWhile_eq_nil_iff.mp hnil
    have hws : ws.dropWhile Char.isWhitespace = [] :=
      List.dropWhile_eq_nil_iff.mpr h
    rw [dropWhile_append_of_all t ws ht, hws, hnil]
  · rw [dropWhile_append_of_ne_nil t ws hnil, List.reverse_append,
      dropWhile_append_of_all ws.reverse _ (fun c hc => h c (List.mem_reverse.mp hc))]

/-- Claim C5: requests whose texts differ only in leading/trailing
whitespace and that agree on voice/rate/volume/pitch get the same cache
key; requests differing in voice, rate, volume or pitch get different
pre-hash canonical serializations (hence, under injectivity of SHA-256,
different fingerprints). -/
theorem fingerprint_claim :
    (∀ (r₁ r₂ : TTSRequest) (core ws₁ ws₂ ws₃ ws₄ : List Char),
      (∀ c ∈ ws₁, c.isWhitespace = true) → (∀ c ∈ ws₂, c.isWhitespace = true) →
      (∀ c ∈ ws₃, c.isWhitespace = true) → (∀ c ∈ ws₄, c.isWhitespace = true) →
      r₁.text = ws₁ ++ core ++ ws₂ → r₂.text = ws₃ ++ core ++ ws₄ →
      r₁.voice = r₂.voice → r₁.rate = r₂.rate →
      r₁.volume = r₂.volume → r₁.pitch = r₂.pitch →
      generate_cache_key r₁ = generate_cache_key r₂) ∧
    (∀ r₁ r₂ : TTSRequest,
      r₁.voice ≠ r₂.voice ∨ r₁.rate ≠ r₂.rate ∨
        r₁.volume ≠ r₂.volume ∨ r₁.pitch ≠ r₂.pitch →
      cache_string r₁ ≠ cache_string r₂) := by
  constructor
  · intro r₁ r₂ core ws₁ ws₂ ws₃ ws₄ h1 h2 h3 h4 ht1 ht2 hv hr hvol hp
    have hstrip : pyStrip r₁.text = pyStrip r₂.text := by
      rw [ht1, ht2, List.append_assoc, List.append_assoc,
        pyStrip_front ws₁ _ h1, pyStrip_front ws₃ _ h3,
        pyStrip_back core ws₂ h2, pyStrip_back core ws₄ h4]
    unfold generate_cache_key cache_string
    rw [hstrip, hv, hr, hvol, hp]
  · intro r₁ r₂ hdiff heq
    obtain ⟨_, hvoice, hrate, hvolume, hpitch⟩ := cache_string_inj r₁ r₂ heq
    rcases hdiff with h | h | h | h
    · exact h hvoice
    · exact h hrate
    · exact h hvolume
    · exact h hpitch

/-- Witness for C5: concrete padded texts agree on the key; a voice
change separates the serializations. -/
theorem fingerprint_claim_witness :
    generate_cache_key ⟨[' ', 'h', 'i', '\u0009'], ['v'], ['r'], ['o'], ['p']⟩ =
      generate_cache_key ⟨['h', 'i'], ['v'], ['r'], ['o'], ['p']⟩ ∧
    cache_string rqA ≠ cache_string rqB :=
  ⟨fingerprint_claim.1 ⟨[' ', 'h', 'i', '\u0009'], ['v'], ['r'], ['o'], ['p']⟩
      ⟨['h', 'i'], ['v'], ['r'], ['o'], ['p']⟩
      ['h', 'i'] [' '] ['\u0009'] [] []
      (by decide) (by decide) (by decide) (by decide)
      rfl rfl rfl rfl rfl rfl,
   fingerprint_claim.2 rqA rqB (Or.inl (by decide))⟩

end TTSSpec
